import Mathlib

/-!
# The xv6 buffer cache (`kernel/bio.c`) with hashed buckets

A shallow embedding of `binit`, `bget`, `bread`, `bwrite`, `brelse`, `bpin` and
`bunpin` of `kernel/bio.c`, and the properties of the cache proved over it.

Modelling choices.

* A `struct buf *` is the index of the slot in `bcache.buf`; the pool size `NBUF`
  (from `param.h`) is the field `nbuf` of the state.
* The circular doubly linked list hanging off `bcache.head[k]` is the Lean list of
  the slot indices met when following `next` from the head, so that the first
  element is `head.next` (most recently used) and the last is `head.prev`.
* `uint` is the 32 bit unsigned integer of the RISC-V target: `refcnt++`,
  `refcnt--` and `blockno+i` are computed modulo `2^32`.
* Spin locks protect the critical sections that are executed here as single
  steps; they carry no state of their own.
* The sleep lock of a slot (`sleeplock.c`) and the disk driver (`virtio_disk.c`) are
  not part of `bio.c`; they are modelled from their description: the lock by its
  holder, the driver by a disk that maps `(dev, blockno)` to a block content and by
  the record of its calls.
* In `run` a call is executed as one step. A call of `bget` that finds the content lock
  of its slot held goes to sleep in `acquiresleep`; such a call has the outcome `sleeps`
  and is no step of a `run`.
* In `sys_run` the processes make the steps of their calls in any order: a call of
  `bread` is split at the release of the bucket lock after a miss and at
  `acquiresleep`, where it may wait while other processes run; a call of `brelse` is
  split at `releasesleep`.
-/

namespace Bio

/-- The bucket count, `#define NBUCKET 29`. -/
def NBUCKET : Nat := 29

/-- The modulus of `uint` arithmetic (`2^32`). -/
def UINT : Nat := 4294967296

/-- The content of one disk block (`uchar data[BSIZE]`), never inspected by the cache. -/
abbrev Data := Nat

/-- The record `struct buf` (declared in `buf.h`): the fields used by `bio.c`. The
sleep lock is represented by its holder, `none` when it is free; `prev` and
`next` are represented by the bucket lists of the state. -/
structure buf where
  valid : Nat
  dev : Nat
  blockno : Nat
  lock : Option Nat
  refcnt : Nat
  data : Data
deriving DecidableEq, Repr

/-- One call of the disk driver, `virtio_disk_rw(b, write)`. -/
inductive DiskEv where
  | rd (dev blockno : Nat)
  | wr (dev blockno : Nat) (data : Data)
deriving DecidableEq, Repr

/-- The global `bcache` (the slots `buf[NBUF]` and the bucket lists `head[NBUCKET]`)
together with the disk behind the driver and the record of the driver calls. -/
structure World where
  nbuf : Nat
  buf : Nat → buf
  head : Nat → List Nat
  disk : Nat → Nat → Data
  log : List DiskEv

/-- The reasons of `panic` in `bio.c`. -/
inductive PanicMsg where
  | bget_no_buffers
  | bwrite
  | brelse
deriving DecidableEq, Repr

/-- The ways a call can end: it returns `r` in state `w`; it calls `panic` in state
`w`; or it goes to sleep in `acquiresleep(&b->lock)` in state `w`. -/
inductive Outcome (α : Type) where
  | ok (w : World) (r : α)
  | panic (w : World) (msg : PanicMsg)
  | sleeps (w : World) (b : Nat)

/-- Assignment to one element of an array. -/
def setAt {α : Type} (f : Nat → α) (i : Nat) (v : α) : Nat → α :=
  fun j => if j = i then v else f j

/-- The operator `++` on a `uint`. -/
def uinc (x : Nat) : Nat := (x + 1) % UINT

/-- The operator `--` on a `uint`. -/
def udec (x : Nat) : Nat := (x + (UINT - 1)) % UINT

/-- A slot of zero-initialised static storage, its sleep lock initialised. -/
def zeroBuf : buf :=
  { valid := 0, dev := 0, blockno := 0, lock := none, refcnt := 0, data := 0 }

/-- The last loop of `binit` (lines 55-61), over the slots `is` in turn: slot `i` is
linked right after `head[i % NBUCKET]`. -/
def binit_links (head : Nat → List Nat) : List Nat → Nat → List Nat
  | [] => head
  | i :: is => binit_links (setAt head (i % NBUCKET) (i :: head (i % NBUCKET))) is

/-- The function `binit` for a pool of `nbuf` slots, in front of the disk `disk`. -/
def binit (nbuf : Nat) (disk : Nat → Nat → Data) : World :=
  { nbuf := nbuf
    buf := fun _ => zeroBuf
    head := binit_links (fun _ => []) (List.range nbuf)
    disk := disk
    log := [] }

/-- Modelled from the spec: `holdingsleep` of `sleeplock.c`, which is not among the
sources; the content lock is exclusive and the caller `pid` holds it. -/
def holdingsleep (w : World) (pid b : Nat) : Prop := (w.buf b).lock = some pid

instance (w : World) (pid b : Nat) : Decidable (holdingsleep w pid b) := by
  unfold holdingsleep; infer_instance

/-- The process `pid` becomes the holder of the content lock of `b`. -/
def lock_by (w : World) (pid b : Nat) : World :=
  { w with buf := setAt w.buf b { w.buf b with lock := some pid } }

/-- Modelled from the spec: `acquiresleep` of `sleeplock.c`, which is not among the
sources; the caller takes the free lock, and sleeps while another holds it. -/
def acquiresleep (w : World) (pid b : Nat) : Outcome Nat :=
  match (w.buf b).lock with
  | none => .ok (lock_by w pid b) b
  | some _ => .sleeps w b

/-- Modelled from the spec: `releasesleep` of `sleeplock.c`, which is not among the
sources. -/
def releasesleep (w : World) (b : Nat) : World :=
  { w with buf := setAt w.buf b { w.buf b with lock := none } }

/-- Modelled from the spec: the driver call `virtio_disk_rw(b, write)` of
`virtio_disk.c`, which is not among the sources; it transfers one whole block
between `b->data` and the block `(b->dev, b->blockno)` of the disk. -/
def virtio_disk_rw (w : World) (b : Nat) (write : Bool) : World :=
  if write then
    { w with
      disk := fun d n =>
        if d = (w.buf b).dev ∧ n = (w.buf b).blockno then (w.buf b).data else w.disk d n
      log := w.log ++ [DiskEv.wr (w.buf b).dev (w.buf b).blockno (w.buf b).data] }
  else
    { w with
      buf := setAt w.buf b { w.buf b with data := w.disk (w.buf b).dev (w.buf b).blockno }
      log := w.log ++ [DiskEv.rd (w.buf b).dev (w.buf b).blockno] }

/-- The first loop of `bget` (lines 78-85): the first slot of bucket
`blockno % NBUCKET`, from `head.next` on, that holds `(dev, blockno)`. -/
def bget_lookup (w : World) (dev blockno : Nat) : Option Nat :=
  (w.head (blockno % NBUCKET)).find?
    (fun b => decide ((w.buf b).dev = dev ∧ (w.buf b).blockno = blockno))

/-- The bucket visited by round `i` of the second loop of `bget`,
`(blockno+i)%NBUCKET` in `uint` arithmetic (line 93). -/
def bget_off (blockno i : Nat) : Nat := ((blockno + i) % UINT) % NBUCKET

/-- The search of the second loop of `bget` (lines 92-96): rounds `i = 0 .. NBUCKET-1`,
each scanning its bucket from `head.prev` backwards for a slot with `refcnt == 0`. -/
def bget_scan (w : World) (blockno : Nat) : Option Nat :=
  (List.range NBUCKET).findSome? (fun i =>
    (w.head (bget_off blockno i)).reverse.find? (fun b => decide ((w.buf b).refcnt = 0)))

/-- The statements `b->next->prev = b->prev; b->prev->next = b->next;`: slot `b`
leaves the list it is linked in. -/
def unlink (head : Nat → List Nat) (b : Nat) : Nat → List Nat :=
  fun k => (head k).erase b

/-- Linking `b` right after `head[k]` (lines 106-109 and 162-165). -/
@[macro_inline] def link_front (head : Nat → List Nat) (k b : Nat) : Nat → List Nat :=
  setAt head k (b :: head k)

/-- The statements of lines 97-109 of `bget`, applied to the slot `b` found by
the scan. -/
def bget_take (w : World) (dev blockno b : Nat) : World :=
  { w with
    buf := setAt w.buf b { w.buf b with dev := dev, blockno := blockno, valid := 0, refcnt := 1 }
    head := link_front (unlink w.head b) (blockno % NBUCKET) b }

/-- The part of `bget` executed under `bcache.lock` (lines 91-118): `none` stands for
the fall through to `panic`. -/
def bget_recycle (w : World) (dev blockno : Nat) : Option (World × Nat) :=
  match bget_scan w blockno with
  | some b => some (bget_take w dev blockno b, b)
  | none => none

/-- The statement `b->refcnt++` of the hit path of `bget` (line 80). -/
def bget_hit (w : World) (b : Nat) : World :=
  { w with buf := setAt w.buf b { w.buf b with refcnt := uinc (w.buf b).refcnt } }

/-- The function `bget`, called by the process `pid`. -/
def bget (w : World) (pid dev blockno : Nat) : Outcome Nat :=
  match bget_lookup w dev blockno with
  | some b => acquiresleep (bget_hit w b) pid b
  | none =>
    match bget_recycle w dev blockno with
    | some (w1, b) => acquiresleep w1 pid b
    | none => .panic w .bget_no_buffers

/-- The statements of `bread` after the call of `bget` (lines 128-132). -/
def bread_fill (w : World) (b : Nat) : World :=
  if (w.buf b).valid = 0 then
    let w1 := virtio_disk_rw w b false
    { w1 with buf := setAt w1.buf b { w1.buf b with valid := 1 } }
  else w

/-- The function `bread`, called by the process `pid`. -/
def bread (w : World) (pid dev blockno : Nat) : Outcome Nat :=
  match bget w pid dev blockno with
  | .ok w1 b => .ok (bread_fill w1 b) b
  | .panic w1 m => .panic w1 m
  | .sleeps w1 b => .sleeps w1 b

/-- The function `bwrite`, called by the process `pid`. -/
def bwrite (w : World) (pid b : Nat) : Outcome Unit :=
  if holdingsleep w pid b then .ok (virtio_disk_rw w b true) ()
  else .panic w .bwrite

/-- The statements of `brelse` after `releasesleep` (lines 157-166). -/
def brelse_drop (w : World) (b : Nat) : World :=
  let w1 : World :=
    { w with buf := setAt w.buf b { w.buf b with refcnt := udec (w.buf b).refcnt } }
  if (w1.buf b).refcnt = 0 then
    { w1 with head := link_front (unlink w1.head b) ((w1.buf b).blockno % NBUCKET) b }
  else w1

/-- The function `brelse`, called by the process `pid`. -/
def brelse (w : World) (pid b : Nat) : Outcome Unit :=
  if holdingsleep w pid b then .ok (brelse_drop (releasesleep w b) b) ()
  else .panic w .brelse

/-- The function `bpin`. -/
def bpin (w : World) (b : Nat) : World :=
  { w with buf := setAt w.buf b { w.buf b with refcnt := uinc (w.buf b).refcnt } }

/-- The function `bunpin`. -/
def bunpin (w : World) (b : Nat) : World :=
  { w with buf := setAt w.buf b { w.buf b with refcnt := udec (w.buf b).refcnt } }

/-- The holder of the content lock of `b` stores `d` in `b->data`. -/
def store (w : World) (b : Nat) (d : Data) : World :=
  { w with buf := setAt w.buf b { w.buf b with data := d } }

/-- The calls a client of the cache can make. -/
inductive Op where
  | bread (pid dev blockno : Nat)
  | bwrite (pid b : Nat)
  | brelse (pid b : Nat)
  | bpin (b : Nat)
  | bunpin (b : Nat)
  | store (pid b : Nat) (d : Data)
deriving DecidableEq, Repr

/-- The state in which a call has returned. -/
def Outcome.world? {α : Type} : Outcome α → Option World
  | .ok w _ => some w
  | .panic _ _ => none
  | .sleeps _ _ => none

/-- The value a call has returned. -/
def Outcome.ret? {α : Type} : Outcome α → Option α
  | .ok _ r => some r
  | .panic _ _ => none
  | .sleeps _ _ => none

/-- The preconditions of the interface: `bwrite`, `brelse` and stores into the data
by the holder of the content lock, `bpin` on a referenced slot, `bunpin` on a
slot with `refcnt > 0`; the arguments of `bread` are `uint` values. -/
def pre (w : World) : Op → Prop
  | .bread _ dev blockno => dev < UINT ∧ blockno < UINT
  | .bwrite pid b => b < w.nbuf ∧ holdingsleep w pid b
  | .brelse pid b => b < w.nbuf ∧ holdingsleep w pid b
  | .bpin b => b < w.nbuf ∧ 0 < (w.buf b).refcnt
  | .bunpin b => b < w.nbuf ∧ 0 < (w.buf b).refcnt
  | .store pid b _ => b < w.nbuf ∧ holdingsleep w pid b

instance (w : World) (op : Op) : Decidable (pre w op) := by
  cases op <;> unfold pre <;> infer_instance

/-- The state after the call `op`, executed as one step. -/
def exec (w : World) : Op → Option World
  | .bread pid dev blockno => (bread w pid dev blockno).world?
  | .bwrite pid b => (bwrite w pid b).world?
  | .brelse pid b => (brelse w pid b).world?
  | .bpin b => some (bpin w b)
  | .bunpin b => some (bunpin w b)
  | .store _ b d => some (store w b d)

/-- One call that meets its precondition and returns. -/
def step (w : World) (op : Op) : Option World :=
  if pre w op then exec w op else none

/-- A sequence of calls, each executed as one step. -/
def run (w : World) : List Op → Option World
  | [] => some w
  | op :: ops => (step w op).bind (fun w1 => run w1 ops)

/-- The states reached from `binit` by calls of `bread`, `bwrite`, `brelse`, `bpin`,
`bunpin` (and stores into the data of a held slot) that meet the preconditions of the
interface, return, and are executed one after the other. `bget` is `static`: it runs
inside `bread` only. -/
inductive Reachable : World → Prop where
  | init (nbuf : Nat) (disk : Nat → Nat → Data) : Reachable (binit nbuf disk)
  | step {w w1 : World} (op : Op) : Reachable w → step w op = some w1 → Reachable w1


/-- The slot `x` holds the block `(dev, blockno)`. -/
def holds (bf : Nat → buf) (dev blockno : Nat) (x : Nat) : Prop :=
  (bf x).dev = dev ∧ (bf x).blockno = blockno

instance (bf : Nat → buf) (dev blockno x : Nat) : Decidable (holds bf dev blockno x) := by
  unfold holds; infer_instance

/-- The invariant of the cache, on the pool size, the slots and the bucket lists.

* `mem_lt`, `cover`, `nodup`, `disj`: every slot of the pool is linked in exactly one of
  the `NBUCKET` lists, exactly once, and nothing else is linked.
* `rc_lt`: `refcnt` is a `uint` value.
* `pristine`: a slot with `valid == 0` has never been handed out.
* `home`: a slot that has been handed out is linked in bucket `blockno % NBUCKET`.
* `suf`: in every list the slots never handed out come last.
* `keys`: of two slots of one list that hold the same block, the one further from
  the head has never been handed out. -/
structure Inv (n : Nat) (bf : Nat → buf) (hd : Nat → List Nat) : Prop where
  mem_lt : ∀ k i, i ∈ hd k → i < n ∧ k < NBUCKET
  cover : ∀ i, i < n → ∃ k, i ∈ hd k
  nodup : ∀ k, (hd k).Nodup
  disj : ∀ k k1 i, i ∈ hd k → i ∈ hd k1 → k = k1
  rc_lt : ∀ i, (bf i).refcnt < UINT
  pristine : ∀ i, (bf i).valid = 0 → bf i = zeroBuf
  home : ∀ i, (bf i).valid ≠ 0 → i ∈ hd ((bf i).blockno % NBUCKET)
  suf : ∀ k, (hd k).Pairwise (fun x y => (bf x).valid = 0 → (bf y).valid = 0)
  keys : ∀ k, (hd k).Pairwise
    (fun x y => (bf x).dev = (bf y).dev → (bf x).blockno = (bf y).blockno → (bf y).valid = 0)

/-- The invariant of the cache, on a state. -/
def World.Inv (w : World) : Prop := Bio.Inv w.nbuf w.buf w.head

/-- The slot `x` after the statements of `bread` that follow `bget`. -/
def filled (w : World) (x : buf) : buf :=
  if x.valid = 0 then { x with data := w.disk x.dev x.blockno, valid := 1 } else x

/-- The state after the calls `ops`, from `binit` on; the state of `binit` when one of
them does not meet its precondition or does not return. -/
def after (ops : List Op) (nbuf : Nat) (disk : Nat → Nat → Data) : World :=
  (run (binit nbuf disk) ops).getD (binit nbuf disk)

/-- A disk whose blocks all differ and differ from the zero block. -/
def disk0 : Nat → Nat → Data := fun dev blockno => 1000000 * (dev + 1) + blockno

/-- The call `op`, made in state `w`, hands the slot `b` to the process `pid`. -/
def reacquires (pid b : Nat) (w : World) : Op → Bool
  | .bread q dev blockno => decide (q = pid) && decide ((bread w q dev blockno).ret? = some b)
  | _ => false

/-- None of the calls `ops`, made one after the other from state `w`, hands the slot `b`
to the process `pid`. -/
def noReacquire (pid b : Nat) : World → List Op → Bool
  | _, [] => true
  | w, op :: ops =>
    !reacquires pid b w op &&
      match step w op with
      | some w1 => noReacquire pid b w1 ops
      | none => true

/-- The reason of the `panic` a call has ended in. -/
def Outcome.panic? {α : Type} : Outcome α → Option PanicMsg
  | .ok _ _ => none
  | .panic _ m => some m
  | .sleeps _ _ => none

/-- The eviction rule in the words of the specification: the buckets are visited in the
order `(t + i) mod NBUCKET`, `i = 0 .. NBUCKET-1`, from the target bucket
`t = blockno mod NBUCKET` on, and the first bucket that has a slot with `refcnt == 0`
yields the one closest to its tail. -/
def spec_scan (w : World) (blockno : Nat) : Option Nat :=
  (List.range NBUCKET).findSome? (fun i =>
    (w.head ((blockno % NBUCKET + i) % NBUCKET)).reverse.find?
      (fun b => decide ((w.buf b).refcnt = 0)))

/-- The places of a call of `bget` between its critical sections: before the lookup
under the bucket lock (line 74), before the recycling under `bcache.lock` (line 91),
returning the slot `b` (before `acquiresleep`), and in `panic`. -/
inductive Pc where
  | lookup
  | recycle
  | done (b : Nat)
  | halted
deriving DecidableEq, Repr

/-- A call `bget(dev, blockno)` in progress. -/
structure Call where
  dev : Nat
  blockno : Nat
  pc : Pc
deriving DecidableEq, Repr

/-- The next critical section of a call of `bget`, executed as one step: the lookup
(lines 74-86) or the recycling (lines 91-117). -/
def bget_step (w : World) (c : Call) : World × Call :=
  match c.pc with
  | .lookup =>
    match bget_lookup w c.dev c.blockno with
    | some b => (bget_hit w b, { c with pc := .done b })
    | none => (w, { c with pc := .recycle })
  | .recycle =>
    match bget_recycle w c.dev c.blockno with
    | some (w1, b) => (w1, { c with pc := .done b })
    | none => (w, { c with pc := .halted })
  | .done _ => (w, c)
  | .halted => (w, c)

/-- Two calls of `bget` interleaved: `true` lets the first call make its next step,
`false` the second. -/
def interleave (w : World) (c1 c2 : Call) : List Bool → World × Call × Call
  | [] => (w, c1, c2)
  | true :: s => interleave (bget_step w c1).1 (bget_step w c1).2 c2 s
  | false :: s => interleave (bget_step w c2).1 c1 (bget_step w c2).2 s

/-- A `bread` of `blockno` followed by the `brelse` of the slot it returned. -/
def read_release (pid dev : Nat) (w : World) (blockno : Nat) : Option World :=
  match bread w pid dev blockno with
  | .ok w1 b => (brelse w1 pid b).world?
  | .panic _ _ => none
  | .sleeps _ _ => none

/-- The blocks `ks` of one device read and released in turn. -/
def scenario (pid dev : Nat) (w : World) : List Nat → Option World
  | [] => some w
  | k :: ks => (read_release pid dev w k).bind (fun w1 => scenario pid dev w1 ks)

/-- The calls by which one process reads, and keeps, the blocks `0 .. 27` and `29` of
device 1: in a pool of 30 slots only slot 28 is left with `refcnt == 0`. -/
def fill_but_28 : List Op :=
  ((List.range 28).map (fun k => Op.bread 1 1 k)) ++ [Op.bread 1 1 29]

/-- The calls by which process 1 sends the content 42 through block 5 of device 1 to
the disk and releases the slot, and process 2 then reads, and keeps, the blocks
`34 .. 63`: in a pool of 30 slots no slot is left with `refcnt == 0`. -/
def round_trip_then_fill : List Op :=
  [Op.bread 1 1 5, Op.store 1 5 42, Op.bwrite 1 5, Op.brelse 1 5] ++
    (List.range 30).map (fun k => Op.bread 2 1 (34 + k))

/-- A slot with its device renamed by `ρ`, the holder of its content lock by `π` and its
content by `δ`. -/
def mapBuf (ρ π δ : Nat → Nat) (x : buf) : buf :=
  { valid := x.valid, dev := ρ x.dev, blockno := x.blockno, lock := x.lock.map π,
    refcnt := x.refcnt, data := δ x.data }

/-- Two states that differ by a renaming of the devices, of the processes and of the
block contents only. -/
structure Sim (ρ π δ : Nat → Nat) (w w1 : World) : Prop where
  nbuf : w1.nbuf = w.nbuf
  head : w1.head = w.head
  buf : ∀ i, w1.buf i = mapBuf ρ π δ (w.buf i)
  disk : ∀ d n, w1.disk (ρ d) n = δ (w.disk d n)

/-- A disk whose blocks carry their own address. -/
def disk_addr : Nat → Nat → Data := fun dev blockno => Nat.pair dev blockno + 1

/-- The content of the blocks of `disk_addr` on the disk `disk`, the devices renamed by
`ρ`. -/
def content_of (ρ : Nat → Nat) (disk : Nat → Nat → Data) : Nat → Nat :=
  fun x => if x = 0 then 0 else disk (ρ (Nat.unpair (x - 1)).1) (Nat.unpair (x - 1)).2

/-- The state after process 1 has read and released the blocks `0 .. 29` of device `dev`
in turn, in a pool of 30 slots in front of the disk `disk_addr`. -/
def after_scenario (dev : Nat) : World :=
  (scenario 1 dev (binit 30 disk_addr) (List.range 30)).getD (binit 30 disk_addr)

/-- The slot a call has gone to sleep on. -/
def Outcome.sleeps? {α : Type} : Outcome α → Option Nat
  | .ok _ _ => none
  | .panic _ _ => none
  | .sleeps _ b => some b

/-- The cache together with the calls in progress. `calls` holds the calls of `bread`,
each with its process and its place in `bget`: `recycle` after a lookup that missed,
`done b` after the `refcnt++` or the recycling of slot `b`, before
`acquiresleep(&b->lock)` returns. `rels` holds the calls of `brelse`, each with its
process and its slot, that have executed `releasesleep` (line 152) and not yet the
statements under the bucket lock (lines 155-166). -/
structure Sys where
  w : World
  calls : List (Nat × Call)
  rels : List (Nat × Nat)

/-- The steps of the processes on the cache. A call of `bread` takes two or three
steps: `bread`, its lookup under the bucket lock (lines 74-86); `recycle`, for a call
that missed, the recycling under `bcache.lock` (lines 91-117); `acquire`, the return of
`acquiresleep`, once the content lock is free, and the rest of `bread` (lines 128-132).
A call of `brelse` takes two steps: `brelse`, the test of `holdingsleep` and
`releasesleep` (lines 149-152); `drop`, the statements under the bucket lock
(lines 155-166). The other calls take one step. -/
inductive Ev where
  | bread (pid dev blockno : Nat)
  | recycle (pid dev blockno : Nat)
  | acquire (pid dev blockno b : Nat)
  | bwrite (pid b : Nat)
  | brelse (pid b : Nat)
  | drop (pid b : Nat)
  | bpin (b : Nat)
  | bunpin (b : Nat)
  | store (pid b : Nat) (d : Data)
deriving DecidableEq, Repr

/-- One step of a process; `none` when the step is not possible (no such call in
progress, the content lock not free) or ends in `panic`. -/
def sys_step (s : Sys) : Ev → Option Sys
  | .bread pid dev blockno =>
    match bget_lookup s.w dev blockno with
    | some b => some ⟨bget_hit s.w b, (pid, ⟨dev, blockno, .done b⟩) :: s.calls, s.rels⟩
    | none => some ⟨s.w, (pid, ⟨dev, blockno, .recycle⟩) :: s.calls, s.rels⟩
  | .recycle pid dev blockno =>
    if (pid, (⟨dev, blockno, .recycle⟩ : Call)) ∈ s.calls then
      match bget_recycle s.w dev blockno with
      | some (w1, b) =>
        some ⟨w1, (pid, ⟨dev, blockno, .done b⟩) ::
          s.calls.erase (pid, ⟨dev, blockno, .recycle⟩), s.rels⟩
      | none => none
    else none
  | .acquire pid dev blockno b =>
    if (pid, (⟨dev, blockno, .done b⟩ : Call)) ∈ s.calls ∧ (s.w.buf b).lock = none then
      some ⟨bread_fill (lock_by s.w pid b) b, s.calls.erase (pid, ⟨dev, blockno, .done b⟩),
        s.rels⟩
    else none
  | .bwrite pid b => (bwrite s.w pid b).world?.map (fun w1 => ⟨w1, s.calls, s.rels⟩)
  | .brelse pid b =>
    if holdingsleep s.w pid b then some ⟨releasesleep s.w b, s.calls, (pid, b) :: s.rels⟩
    else none
  | .drop pid b =>
    if (pid, b) ∈ s.rels then some ⟨brelse_drop s.w b, s.calls, s.rels.erase (pid, b)⟩
    else none
  | .bpin b => some ⟨bpin s.w b, s.calls, s.rels⟩
  | .bunpin b => some ⟨bunpin s.w b, s.calls, s.rels⟩
  | .store _ b d => some ⟨store s.w b d, s.calls, s.rels⟩

/-- A sequence of steps. -/
def sys_run (s : Sys) : List Ev → Option Sys
  | [] => some s
  | ev :: evs => (sys_step s ev).bind (fun s1 => sys_run s1 evs)

/-- The states of the cache and of the calls in progress reached from `binit` by steps
of the processes, without any precondition on the calls. -/
inductive SysReach : Sys → Prop where
  | init (nbuf : Nat) (disk : Nat → Nat → Data) : SysReach ⟨binit nbuf disk, [], []⟩
  | step {s s1 : Sys} (ev : Ev) : SysReach s → sys_step s ev = some s1 → SysReach s1

/-- The state after the steps `evs`, from `binit` on; the state of `binit` when one of
them is not possible. -/
def sys_after (evs : List Ev) (nbuf : Nat) (disk : Nat → Nat → Data) : Sys :=
  (sys_run ⟨binit nbuf disk, [], []⟩ evs).getD ⟨binit nbuf disk, [], []⟩

/-- The number of holders of the content lock of slot `i`: 0 or 1. -/
def holders (w : World) (i : Nat) : Nat := if (w.buf i).lock = none then 0 else 1

/-- The number of calls of `bread` that have their reference to slot `i` and have not
yet acquired its content lock. -/
def waiters (calls : List (Nat × Call)) (i : Nat) : Nat :=
  calls.countP (fun e => decide (e.2.pc = .done i))

/-- The number of calls of `brelse` on slot `i` that have released its content lock and
not yet applied `--` to its `refcnt`. -/
def releasing (rels : List (Nat × Nat)) (i : Nat) : Nat :=
  rels.countP (fun e => decide (e.2 = i))

/-- The references to slot `i` that calls of `bread` and `brelse` account for: one for
the holder of the content lock, one for each call of `bread` that waits for it, one for
each call of `brelse` that has released it and not yet applied `--`. -/
def owed (s : Sys) (i : Nat) : Nat :=
  holders s.w i + waiters s.calls i + releasing s.rels i

/-- The precondition of `bunpin`, strengthened: the reference given up is not one that
a call of `bread` or `brelse` accounts for. -/
def sys_ok (s : Sys) : Ev → Prop
  | .bunpin b => owed s b < (s.w.buf b).refcnt
  | _ => True

instance (s : Sys) (ev : Ev) : Decidable (sys_ok s ev) := by
  cases ev <;> unfold sys_ok <;> infer_instance

/-- One step that meets the strengthened precondition. -/
def sys_stepS (s : Sys) (ev : Ev) : Option Sys :=
  if sys_ok s ev then sys_step s ev else none

/-- A sequence of steps that meet the strengthened precondition. -/
def sys_runS (s : Sys) : List Ev → Option Sys
  | [] => some s
  | ev :: evs => (sys_stepS s ev).bind (fun s1 => sys_runS s1 evs)

/-- The invariant behind the absence of wrap-around after `n` steps: every reference
accounted for is counted in `refcnt`, and no `refcnt` exceeds the number of steps
made. -/
def Counted (s : Sys) (n : Nat) : Prop :=
  ∀ i, owed s i ≤ (s.w.buf i).refcnt ∧ (s.w.buf i).refcnt ≤ n

/-- The part of the invariant on the bucket lists alone: every slot of the pool is
linked in exactly one of the `NBUCKET` lists, exactly once, and nothing else is. -/
structure Linked (n : Nat) (hd : Nat → List Nat) : Prop where
  mem_lt : ∀ k i, i ∈ hd k → i < n ∧ k < NBUCKET
  cover : ∀ i, i < n → ∃ k, i ∈ hd k
  nodup : ∀ k, (hd k).Nodup
  disj : ∀ k k1 i, i ∈ hd k → i ∈ hd k1 → k = k1

/-- The invariant of the cache with calls in progress: the lists are well formed,
`refcnt` is a `uint` value, and a slot whose content lock is held, waited for or just
released is linked in the bucket of its block. -/
structure Sys.Inv (s : Sys) : Prop where
  linked : Linked s.w.nbuf s.w.head
  rc_lt : ∀ i, (s.w.buf i).refcnt < UINT
  home : ∀ i, ((s.w.buf i).lock ≠ none ∨ (∃ e ∈ s.calls, e.2.pc = .done i) ∨
    ∃ e ∈ s.rels, e.2 = i) → i ∈ s.w.head ((s.w.buf i).blockno % NBUCKET)


/-! ## Arrays and lists -/

@[simp] theorem setAt_same {α : Type} (f : Nat → α) (i : Nat) (v : α) : setAt f i v i = v := by
  simp [setAt]

@[simp] theorem setAt_ne {α : Type} (f : Nat → α) {i j : Nat} (v : α) (h : j ≠ i) :
    setAt f i v j = f j := by
  simp [setAt, h]

@[simp] theorem setAt_setAt {α : Type} (f : Nat → α) (i : Nat) (u v : α) :
    setAt (setAt f i u) i v = setAt f i v := by
  funext j; by_cases h : j = i <;> simp [setAt, h]

theorem setAt_apply {α : Type} (f : Nat → α) (i j : Nat) (v : α) :
    setAt f i v j = if j = i then v else f j := rfl

theorem link_front_apply (hd : Nat → List Nat) (k b j : Nat) :
    link_front (unlink hd b) k b j = if j = k then b :: (hd k).erase b else (hd j).erase b := by
  unfold link_front unlink setAt
  by_cases h : j = k <;> simp [h]

/-- In a list without repetition, an element other than a given one is either in front
of it or behind it. -/
theorem mem_split_of_ne {l as bs : List Nat} {b x : Nat} (hl : l = as ++ b :: bs)
    (hx : x ∈ l) (hne : x ≠ b) : x ∈ as ∨ x ∈ bs := by
  subst hl
  simp only [List.mem_append, List.mem_cons] at hx
  rcases hx with h | h | h
  · exact Or.inl h
  · exact absurd h hne
  · exact Or.inr h

/-- The last element of a list that satisfies `p`: nothing behind it satisfies `p`. -/
theorem find?_reverse_eq_some {l : List Nat} {p : Nat → Bool} {b : Nat}
    (h : l.reverse.find? p = some b) :
    p b = true ∧ ∃ as bs, l = as ++ b :: bs ∧ ∀ x ∈ bs, p x = false := by
  rw [List.find?_eq_some] at h
  obtain ⟨hp, as, bs, hl, hn⟩ := h
  refine ⟨hp, bs.reverse, as.reverse, ?_, ?_⟩
  · have := congrArg List.reverse hl
    simpa using this
  · intro x hx
    have := hn x (by simpa using hx)
    simpa using this


/-! ## The invariant is kept by the elementary updates -/

/-- A slot that has been handed out is the first slot of its bucket that holds its
block. -/
theorem Inv.first_of_valid {n : Nat} {bf : Nat → buf} {hd : Nat → List Nat}
    (I : Inv n bf hd) {i : Nat} (hv : (bf i).valid ≠ 0) :
    (hd ((bf i).blockno % NBUCKET)).find?
      (fun x => decide (holds bf (bf i).dev (bf i).blockno x)) = some i := by
  have hmem := I.home i hv
  have hsome : ((hd ((bf i).blockno % NBUCKET)).find?
      (fun x => decide (holds bf (bf i).dev (bf i).blockno x))).isSome := by
    rw [List.find?_isSome]
    exact ⟨i, hmem, by simp [holds]⟩
  obtain ⟨m, hm⟩ := Option.isSome_iff_exists.mp hsome
  rw [hm]
  by_cases hmi : m = i
  · rw [hmi]
  · exfalso
    obtain ⟨hpm, as, bs, hl, hn⟩ := List.find?_eq_some.mp hm
    have hpm1 : holds bf (bf i).dev (bf i).blockno m := by simpa using hpm
    rcases mem_split_of_ne hl hmem (Ne.symm hmi) with h | h
    · have := hn i h
      simp [holds] at this
    · have hk := I.keys ((bf i).blockno % NBUCKET)
      rw [hl, List.pairwise_append] at hk
      have := (List.pairwise_cons.mp hk.2.1).1 i h hpm1.1 hpm1.2
      exact hv this

/-- The content of a list is kept when the slot that changes is not in it. -/
theorem pairwise_setAt_of_not_mem {bf : Nat → buf} {b : Nat} {v : buf} {l : List Nat}
    {R : buf → buf → Prop} (hb : b ∉ l) (h : l.Pairwise (fun x y => R (bf x) (bf y))) :
    l.Pairwise (fun x y => R (setAt bf b v x) (setAt bf b v y)) := by
  refine List.Pairwise.imp_of_mem ?_ h
  intro x y hx hy hxy
  have hxb : x ≠ b := fun e => hb (e ▸ hx)
  have hyb : y ≠ b := fun e => hb (e ▸ hy)
  simpa [hxb, hyb] using hxy

/-- Updating the first slot of a bucket that holds its block, keeping the block and
marking the slot as handed out, keeps the invariant. -/
theorem Inv.update_first {n : Nat} {bf : Nat → buf} {hd : Nat → List Nat}
    (I : Inv n bf hd) {b : Nat} {v : buf}
    (hf : (hd ((bf b).blockno % NBUCKET)).find?
      (fun x => decide (holds bf (bf b).dev (bf b).blockno x)) = some b)
    (hv : v.valid ≠ 0) (hdev : v.dev = (bf b).dev) (hblk : v.blockno = (bf b).blockno)
    (hrc : v.refcnt < UINT) :
    Inv n (setAt bf b v) hd := by
  obtain ⟨_, as, bs, hl, hn⟩ := List.find?_eq_some.mp hf
  have hbmem : b ∈ hd ((bf b).blockno % NBUCKET) := List.mem_of_find?_eq_some hf
  have hnd := I.nodup ((bf b).blockno % NBUCKET)
  rw [hl] at hnd
  have hbas : b ∉ as := fun h => (List.disjoint_of_nodup_append hnd) h (List.mem_cons_self _ _)
  have hbbs : b ∉ bs := ((List.nodup_cons.mp (List.nodup_append.mp hnd).2.1).1)
  refine ⟨I.mem_lt, I.cover, I.nodup, I.disj, ?_, ?_, ?_, ?_, ?_⟩
  · intro i
    by_cases hib : i = b
    · subst hib; simpa using hrc
    · simpa [hib] using I.rc_lt i
  · intro i hi
    by_cases hib : i = b
    · subst hib; simp at hi; exact absurd hi hv
    · simp [hib] at hi ⊢; exact I.pristine i hi
  · intro i hi
    by_cases hib : i = b
    · subst hib; simp [hblk]; exact hbmem
    · simp [hib] at hi ⊢; exact I.home i hi
  · intro k
    by_cases hk : b ∈ hd k
    · have hkk : k = (bf b).blockno % NBUCKET := I.disj _ _ _ hk hbmem
      have hs := I.suf k
      rw [hkk, hl] at hs ⊢
      rw [List.pairwise_append] at hs ⊢
      obtain ⟨h1, h2, h3⟩ := hs
      rw [List.pairwise_cons] at h2 ⊢
      refine ⟨pairwise_setAt_of_not_mem (R := fun x y => x.valid = 0 → y.valid = 0) hbas h1,
        ⟨?_, pairwise_setAt_of_not_mem (R := fun x y => x.valid = 0 → y.valid = 0) hbbs h2.2⟩, ?_⟩
      · intro y _ h0
        simp at h0; exact absurd h0 hv
      · intro x hx y hy
        have hxb : x ≠ b := fun e => hbas (e ▸ hx)
        rcases List.mem_cons.mp hy with hyb | hyb
        · subst hyb
          simp only [setAt_ne _ _ hxb, setAt_same]
          intro hx0
          exfalso
          have hy0 := h3 x hx y (List.mem_cons_self _ _) hx0
          have e1 := I.pristine x hx0
          have e2 := I.pristine y hy0
          have := hn x hx
          simp [holds, e1, e2] at this
        · have hyb1 : y ≠ b := fun e => hbbs (e ▸ hyb)
          simp only [setAt_ne _ _ hxb, setAt_ne _ _ hyb1]
          exact h3 x hx y hy
    · exact pairwise_setAt_of_not_mem (R := fun x y => x.valid = 0 → y.valid = 0) hk (I.suf k)
  · intro k
    by_cases hk : b ∈ hd k
    · have hkk : k = (bf b).blockno % NBUCKET := I.disj _ _ _ hk hbmem
      have hs := I.keys k
      rw [hkk, hl] at hs ⊢
      rw [List.pairwise_append] at hs ⊢
      obtain ⟨h1, h2, h3⟩ := hs
      rw [List.pairwise_cons] at h2 ⊢
      refine ⟨pairwise_setAt_of_not_mem
          (R := fun x y => x.dev = y.dev → x.blockno = y.blockno → y.valid = 0) hbas h1,
        ⟨?_, pairwise_setAt_of_not_mem
          (R := fun x y => x.dev = y.dev → x.blockno = y.blockno → y.valid = 0) hbbs h2.2⟩, ?_⟩
      · intro y hy
        have hyb1 : y ≠ b := fun e => hbbs (e ▸ hy)
        simp only [setAt_ne _ _ hyb1, setAt_same, hdev, hblk]
        exact h2.1 y hy
      · intro x hx y hy
        have hxb : x ≠ b := fun e => hbas (e ▸ hx)
        rcases List.mem_cons.mp hy with hyb | hyb
        · subst hyb
          simp only [setAt_ne _ _ hxb, setAt_same, hdev, hblk]
          intro e1 e2
          exfalso
          have := hn x hx
          simp [holds, e1, e2] at this
        · have hyb1 : y ≠ b := fun e => hbbs (e ▸ hyb)
          simp only [setAt_ne _ _ hxb, setAt_ne _ _ hyb1]
          exact h3 x hx y hy
    · exact pairwise_setAt_of_not_mem
        (R := fun x y => x.dev = y.dev → x.blockno = y.blockno → y.valid = 0) hk (I.keys k)


/-- Moving a slot of the pool to the front of the bucket of the block it now holds,
marked as handed out, keeps the invariant, provided the other slots of that bucket
that hold the same block have never been handed out. -/
theorem Inv.move_front {n : Nat} {bf : Nat → buf} {hd : Nat → List Nat}
    (I : Inv n bf hd) {b : Nat} {v : buf} (hb : b < n) (hv : v.valid ≠ 0)
    (hrc : v.refcnt < UINT)
    (hk : ∀ x ∈ hd (v.blockno % NBUCKET), x ≠ b →
      (bf x).dev = v.dev → (bf x).blockno = v.blockno → (bf x).valid = 0) :
    Inv n (setAt bf b v) (link_front (unlink hd b) (v.blockno % NBUCKET) b) := by
  have hlt : v.blockno % NBUCKET < NBUCKET := Nat.mod_lt _ (by decide)
  have hne : ∀ k x, x ∈ (hd k).erase b → x ≠ b := fun k x hx e =>
    (I.nodup k).not_mem_erase (e ▸ hx)
  have hsub : ∀ k x, x ∈ (hd k).erase b → x ∈ hd k := fun k x hx =>
    (List.erase_sublist b (hd k)).subset hx
  have hmem : ∀ k x, x ∈ link_front (unlink hd b) (v.blockno % NBUCKET) b k →
      (x = b ∧ k = v.blockno % NBUCKET) ∨ (x ≠ b ∧ x ∈ hd k) := by
    intro k x hx
    rw [link_front_apply] at hx
    split at hx
    · next h =>
      rcases List.mem_cons.mp hx with e | e
      · exact Or.inl ⟨e, h⟩
      · exact Or.inr ⟨hne _ _ e, h ▸ hsub _ _ e⟩
    · exact Or.inr ⟨hne _ _ hx, hsub _ _ hx⟩
  have hmem2 : ∀ k x, x ≠ b → x ∈ hd k →
      x ∈ link_front (unlink hd b) (v.blockno % NBUCKET) b k := by
    intro k x hxb hx
    rw [link_front_apply]
    have : x ∈ (hd k).erase b := (List.mem_erase_of_ne hxb).mpr hx
    split
    · next h => exact List.mem_cons_of_mem _ (h ▸ this)
    · exact this
  have herase : ∀ (R : buf → buf → Prop) k, (hd k).Pairwise (fun x y => R (bf x) (bf y)) →
      ((hd k).erase b).Pairwise (fun x y => R (setAt bf b v x) (setAt bf b v y)) := by
    intro R k h
    exact pairwise_setAt_of_not_mem (I.nodup k).not_mem_erase
      (h.sublist (List.erase_sublist b (hd k)))
  refine ⟨?_, ?_, ?_, ?_, ?_, ?_, ?_, ?_, ?_⟩
  · intro k i hi
    rcases hmem k i hi with ⟨e1, e2⟩ | ⟨_, h⟩
    · exact ⟨e1 ▸ hb, e2 ▸ hlt⟩
    · exact I.mem_lt k i h
  · intro i hi
    by_cases hib : i = b
    · refine ⟨v.blockno % NBUCKET, ?_⟩
      rw [link_front_apply, hib]; simp
    · obtain ⟨k, hk1⟩ := I.cover i hi
      exact ⟨k, hmem2 k i hib hk1⟩
  · intro k
    rw [link_front_apply]
    split
    · exact List.nodup_cons.mpr ⟨(I.nodup _).not_mem_erase, (I.nodup _).erase b⟩
    · exact (I.nodup _).erase b
  · intro k k1 i h1 h2
    rcases hmem k i h1 with ⟨e1, e2⟩ | ⟨e1, e2⟩ <;> rcases hmem k1 i h2 with ⟨f1, f2⟩ | ⟨f1, f2⟩
    · rw [e2, f2]
    · exact absurd e1 f1
    · exact absurd f1 e1
    · exact I.disj k k1 i e2 f2
  · intro i
    by_cases hib : i = b
    · subst hib; simpa using hrc
    · simpa [hib] using I.rc_lt i
  · intro i hi
    by_cases hib : i = b
    · subst hib; simp at hi; exact absurd hi hv
    · simp [hib] at hi ⊢; exact I.pristine i hi
  · intro i hi
    by_cases hib : i = b
    · subst hib
      rw [link_front_apply]; simp
    · simp only [setAt_ne _ _ hib] at hi ⊢
      exact hmem2 _ i hib (I.home i hi)
  · intro k
    rw [link_front_apply]
    split
    · rw [List.pairwise_cons]
      refine ⟨?_, herase (fun x y => x.valid = 0 → y.valid = 0) _ (I.suf _)⟩
      intro y _ h0
      simp at h0; exact absurd h0 hv
    · exact herase (fun x y => x.valid = 0 → y.valid = 0) _ (I.suf _)
  · intro k
    rw [link_front_apply]
    split
    · rw [List.pairwise_cons]
      refine ⟨?_, herase (fun x y => x.dev = y.dev → x.blockno = y.blockno → y.valid = 0) _
        (I.keys _)⟩
      intro y hy
      have hyb := hne _ _ hy
      simp only [setAt_ne _ _ hyb, setAt_same]
      intro e1 e2
      exact hk y (hsub _ _ hy) hyb e1.symm e2.symm
    · exact herase (fun x y => x.dev = y.dev → x.blockno = y.blockno → y.valid = 0) _ (I.keys _)

/-- The other slots of a bucket that hold the block of a handed out slot have never
been handed out. -/
theorem Inv.others_pristine {n : Nat} {bf : Nat → buf} {hd : Nat → List Nat}
    (I : Inv n bf hd) {b : Nat} (hv : (bf b).valid ≠ 0) :
    ∀ x ∈ hd ((bf b).blockno % NBUCKET), x ≠ b →
      (bf x).dev = (bf b).dev → (bf x).blockno = (bf b).blockno → (bf x).valid = 0 := by
  intro x hx hxb e1 e2
  obtain ⟨_, as, bs, hl, hn⟩ := List.find?_eq_some.mp (I.first_of_valid hv)
  rcases mem_split_of_ne hl hx hxb with h | h
  · have := hn x h
    simp [holds, e1, e2] at this
  · have hk := I.keys ((bf b).blockno % NBUCKET)
    rw [hl, List.pairwise_append] at hk
    exact (List.pairwise_cons.mp hk.2.1).1 x h e1.symm e2.symm

/-! ## The state built by `binit` -/

theorem mem_binit_links (is : List Nat) (head : Nat → List Nat) (i k : Nat) :
    i ∈ binit_links head is k ↔ i ∈ head k ∨ (i ∈ is ∧ i % NBUCKET = k) := by
  induction is generalizing head with
  | nil => simp [binit_links]
  | cons a is ih =>
    rw [binit_links, ih, setAt_apply]
    by_cases h : k = a % NBUCKET
    · subst h
      simp only [if_true, List.mem_cons]
      constructor
      · rintro ((h | h) | ⟨h1, h2⟩)
        · exact Or.inr ⟨Or.inl h, h ▸ rfl⟩
        · exact Or.inl h
        · exact Or.inr ⟨Or.inr h1, h2⟩
      · rintro (h | ⟨h1 | h1, h2⟩)
        · exact Or.inl (Or.inr h)
        · exact Or.inl (Or.inl h1)
        · exact Or.inr ⟨h1, h2⟩
    · simp only [if_neg h, List.mem_cons]
      constructor
      · rintro (h1 | ⟨h1, h2⟩)
        · exact Or.inl h1
        · exact Or.inr ⟨Or.inr h1, h2⟩
      · rintro (h1 | ⟨h1 | h1, h2⟩)
        · exact Or.inl h1
        · exact absurd (h1 ▸ h2).symm h
        · exact Or.inr ⟨h1, h2⟩

theorem nodup_binit_links (is : List Nat) (head : Nat → List Nat)
    (h1 : ∀ k, (head k).Nodup) (h2 : is.Nodup) (h3 : ∀ i ∈ is, ∀ k, i ∉ head k) (k : Nat) :
    (binit_links head is k).Nodup := by
  induction is generalizing head with
  | nil => simpa [binit_links] using h1 k
  | cons a is ih =>
    rw [binit_links]
    have ha := List.nodup_cons.mp h2
    apply ih
    · intro j
      rw [setAt_apply]
      split
      · exact List.nodup_cons.mpr ⟨h3 a (List.mem_cons_self _ _) _, h1 _⟩
      · exact h1 j
    · exact ha.2
    · intro i hi j
      rw [setAt_apply]
      split
      · intro hmem
        rcases List.mem_cons.mp hmem with e | e
        · exact ha.1 (e ▸ hi)
        · exact h3 i (List.mem_cons_of_mem _ hi) _ e
      · exact h3 i (List.mem_cons_of_mem _ hi) j

/-- The invariant holds after `binit`. -/
theorem binit_inv (nbuf : Nat) (disk : Nat → Nat → Data) : (binit nbuf disk).Inv := by
  unfold World.Inv binit
  simp only
  refine ⟨?_, ?_, ?_, ?_, ?_, ?_, ?_, ?_, ?_⟩
  · intro k i hi
    rw [mem_binit_links] at hi
    rcases hi with h | ⟨h1, h2⟩
    · simp at h
    · exact ⟨List.mem_range.mp h1, h2 ▸ Nat.mod_lt _ (by decide)⟩
  · intro i hi
    exact ⟨i % NBUCKET, (mem_binit_links _ _ _ _).mpr (Or.inr ⟨List.mem_range.mpr hi, rfl⟩)⟩
  · intro k
    exact nodup_binit_links _ _ (fun _ => List.nodup_nil) (List.nodup_range nbuf)
      (fun _ _ _ => List.not_mem_nil _) k
  · intro k k1 i h1 h2
    rw [mem_binit_links] at h1 h2
    rcases h1 with h | ⟨_, h1⟩
    · simp at h
    · rcases h2 with h | ⟨_, h2⟩
      · simp at h
      · rw [← h1, ← h2]
  · intro i; simp [zeroBuf, UINT]
  · intro i _; rfl
  · intro i hi; exact absurd rfl hi
  · intro k; exact List.pairwise_of_forall (fun _ _ _ => rfl)
  · intro k; exact List.pairwise_of_forall (fun _ _ _ _ => rfl)


/-! ## The effect of the calls on the state -/

@[simp] theorem setAt_self {α : Type} (f : Nat → α) (i : Nat) : setAt f i (f i) = f := by
  funext j; by_cases h : j = i <;> simp [setAt, h]

theorem filled_valid (w : World) (x : buf) : (filled w x).valid ≠ 0 := by
  unfold filled; split <;> simp_all

theorem filled_dev (w : World) (x : buf) : (filled w x).dev = x.dev := by
  unfold filled; split <;> rfl

theorem filled_blockno (w : World) (x : buf) : (filled w x).blockno = x.blockno := by
  unfold filled; split <;> rfl

theorem filled_refcnt (w : World) (x : buf) : (filled w x).refcnt = x.refcnt := by
  unfold filled; split <;> rfl

theorem filled_lock (w : World) (x : buf) : (filled w x).lock = x.lock := by
  unfold filled; split <;> rfl

theorem bread_fill_buf (w : World) (b : Nat) :
    (bread_fill w b).buf = setAt w.buf b (filled w (w.buf b)) := by
  unfold bread_fill filled virtio_disk_rw
  split <;> simp

theorem bread_fill_head (w : World) (b : Nat) : (bread_fill w b).head = w.head := by
  unfold bread_fill virtio_disk_rw; split <;> simp

theorem bread_fill_nbuf (w : World) (b : Nat) : (bread_fill w b).nbuf = w.nbuf := by
  unfold bread_fill virtio_disk_rw; split <;> simp

theorem bread_fill_disk (w : World) (b : Nat) : (bread_fill w b).disk = w.disk := by
  unfold bread_fill virtio_disk_rw; split <;> simp

theorem bread_fill_log (w : World) (b : Nat) :
    (bread_fill w b).log =
      if (w.buf b).valid = 0 then w.log ++ [DiskEv.rd (w.buf b).dev (w.buf b).blockno]
      else w.log := by
  unfold bread_fill virtio_disk_rw; split <;> simp

/-- The two ways `bread` returns: a hit on the first slot that holds the block, or
the recycling of the slot found by the scan; in both the content lock was free. -/
theorem bread_ok {w w1 : World} {pid dev blockno b : Nat}
    (h : bread w pid dev blockno = .ok w1 b) :
    (bget_lookup w dev blockno = some b ∧ (w.buf b).lock = none ∧
        w1 = bread_fill (lock_by (bget_hit w b) pid b) b) ∨
    (bget_lookup w dev blockno = none ∧ bget_scan w blockno = some b ∧
        (w.buf b).lock = none ∧
        w1 = bread_fill (lock_by (bget_take w dev blockno b) pid b) b) := by
  unfold bread bget at h
  cases hl : bget_lookup w dev blockno with
  | some c =>
    simp only [hl] at h
    unfold acquiresleep at h
    cases hk : ((bget_hit w c).buf c).lock with
    | none =>
      simp only [hk] at h
      injection h with h1 h2
      subst h2
      refine Or.inl ⟨rfl, ?_, h1.symm⟩
      simpa [bget_hit] using hk
    | some q => simp [hk] at h
  | none =>
    simp only [hl] at h
    unfold bget_recycle at h
    cases hs : bget_scan w blockno with
    | none => simp [hs] at h
    | some c =>
      simp only [hs] at h
      unfold acquiresleep at h
      cases hk : ((bget_take w dev blockno c).buf c).lock with
      | none =>
        simp only [hk] at h
        injection h with h1 h2
        subst h2
        refine Or.inr ⟨rfl, rfl, ?_, h1.symm⟩
        simpa [bget_take] using hk
      | some q => simp [hk] at h


/-- The slot returned by a hit of `bread`. -/
theorem hit_buf (w : World) (pid b : Nat) :
    (bread_fill (lock_by (bget_hit w b) pid b) b).buf =
      setAt w.buf b
        (filled w { w.buf b with refcnt := uinc (w.buf b).refcnt, lock := some pid }) := by
  rw [bread_fill_buf]
  simp [lock_by, bget_hit, filled]

/-- The slot returned by a miss of `bread`. -/
theorem miss_buf (w : World) (pid dev blockno b : Nat) :
    (bread_fill (lock_by (bget_take w dev blockno b) pid b) b).buf =
      setAt w.buf b
        { valid := 1, dev := dev, blockno := blockno, lock := some pid, refcnt := 1,
          data := w.disk dev blockno } := by
  rw [bread_fill_buf]
  simp [lock_by, bget_take, filled]

theorem hit_head (w : World) (pid b : Nat) :
    (bread_fill (lock_by (bget_hit w b) pid b) b).head = w.head := by
  rw [bread_fill_head]; rfl

theorem miss_head (w : World) (pid dev blockno b : Nat) :
    (bread_fill (lock_by (bget_take w dev blockno b) pid b) b).head =
      link_front (unlink w.head b) (blockno % NBUCKET) b := by
  rw [bread_fill_head]; rfl

/-- The slot found by the scan is linked in a bucket and has `refcnt == 0`. -/
theorem bget_scan_some {w : World} {blockno b : Nat} (h : bget_scan w blockno = some b) :
    (w.buf b).refcnt = 0 ∧ ∃ i, i < NBUCKET ∧ b ∈ w.head (bget_off blockno i) := by
  unfold bget_scan at h
  obtain ⟨i, hi, hf⟩ := List.exists_of_findSome?_eq_some h
  have h1 := List.find?_some hf
  have h2 := List.mem_of_find?_eq_some hf
  exact ⟨by simpa using h1, i, List.mem_range.mp hi, by simpa using h2⟩

/-- A slot whose content lock is held, or whose `refcnt` is not zero, has been handed
out. -/
theorem Inv.valid_of_lock {n : Nat} {bf : Nat → buf} {hd : Nat → List Nat}
    (I : Inv n bf hd) {b : Nat} (h : (bf b).lock ≠ none ∨ (bf b).refcnt ≠ 0) :
    (bf b).valid ≠ 0 := by
  intro h0
  have := I.pristine b h0
  rcases h with h | h <;> simp [this, zeroBuf] at h

/-- Every call that meets its precondition and returns keeps the invariant. -/
theorem step_inv {w w1 : World} {op : Op} (I : w.Inv) (h : step w op = some w1) : w1.Inv := by
  unfold step at h
  split at h
  case isFalse => exact absurd h (by simp)
  case isTrue hp =>
  unfold World.Inv at I ⊢
  cases op with
  | bread pid dev blockno =>
    simp only [exec] at h
    cases hb : bread w pid dev blockno with
    | panic w2 m => simp [hb, Outcome.world?] at h
    | sleeps w2 m => simp [hb, Outcome.world?] at h
    | ok w2 b =>
      simp only [hb, Outcome.world?, Option.some.injEq] at h
      subst h
      rcases bread_ok hb with ⟨hl, _, rfl⟩ | ⟨hl, hs, _, rfl⟩
      · rw [hit_buf, hit_head, bread_fill_nbuf]
        show Inv w.nbuf _ w.head
        unfold bget_lookup at hl
        have hm := List.find?_some hl
        simp only [decide_eq_true_eq] at hm
        apply I.update_first
        · rw [hm.2, hm.1]; exact hl
        · exact filled_valid _ _
        · rw [filled_dev]
        · rw [filled_blockno]
        · rw [filled_refcnt]; exact Nat.mod_lt _ (by decide)
      · rw [miss_buf, miss_head, bread_fill_nbuf]
        show Inv w.nbuf _ _
        obtain ⟨_, i, _, hmem⟩ := bget_scan_some hs
        have hlt := (I.mem_lt _ _ hmem).1
        unfold bget_lookup at hl
        rw [List.find?_eq_none] at hl
        refine I.move_front (v := ⟨1, dev, blockno, some pid, 1, w.disk dev blockno⟩) hlt
          (by simp) (by simp [UINT]) ?_
        intro x hx _ e1 e2
        have := hl x hx
        simp [e1, e2] at this
  | bwrite pid b =>
    simp only [exec, bwrite] at h
    split at h
    · simp only [Outcome.world?, Option.some.injEq] at h
      subst h
      simpa [virtio_disk_rw] using I
    · simp [Outcome.world?] at h
  | brelse pid b =>
    simp only [exec, brelse] at h
    split at h
    case isFalse => simp [Outcome.world?] at h
    case isTrue hh =>
    simp only [Outcome.world?, Option.some.injEq] at h
    subst h
    unfold holdingsleep at hh
    have hv : (w.buf b).valid ≠ 0 := I.valid_of_lock (Or.inl (by simp [hh]))
    unfold brelse_drop
    simp only [releasesleep, setAt_same, setAt_setAt]
    split
    · show Inv w.nbuf _ _
      exact I.move_front (b := b)
        (v := ⟨(w.buf b).valid, (w.buf b).dev, (w.buf b).blockno, none,
          udec (w.buf b).refcnt, (w.buf b).data⟩)
        hp.1 hv (Nat.mod_lt _ (by decide)) (I.others_pristine hv)
    · show Inv w.nbuf _ _
      exact I.update_first (I.first_of_valid hv) hv rfl rfl (Nat.mod_lt _ (by decide))
  | bpin b =>
    simp only [exec, Option.some.injEq] at h
    subst h
    have hv : (w.buf b).valid ≠ 0 := I.valid_of_lock (Or.inr (Nat.pos_iff_ne_zero.mp hp.2))
    exact I.update_first (I.first_of_valid hv) hv rfl rfl (Nat.mod_lt _ (by decide))
  | bunpin b =>
    simp only [exec, Option.some.injEq] at h
    subst h
    have hv : (w.buf b).valid ≠ 0 := I.valid_of_lock (Or.inr (Nat.pos_iff_ne_zero.mp hp.2))
    exact I.update_first (I.first_of_valid hv) hv rfl rfl (Nat.mod_lt _ (by decide))
  | store pid b d =>
    simp only [exec, Option.some.injEq] at h
    subst h
    have hh : (w.buf b).lock = some pid := hp.2
    have hv : (w.buf b).valid ≠ 0 := I.valid_of_lock (Or.inl (by simp [hh]))
    exact I.update_first (I.first_of_valid hv) hv rfl rfl (I.rc_lt b)

/-- The invariant holds in every reachable state. -/
theorem Reachable.inv {w : World} (h : Reachable w) : w.Inv := by
  induction h with
  | init nbuf disk => exact binit_inv nbuf disk
  | step op _ hs ih => exact step_inv ih hs

/-- The states reached from a reachable state are reachable. -/
theorem Reachable.run {w w1 : World} {ops : List Op} (h : Reachable w)
    (hr : run w ops = some w1) : Reachable w1 := by
  induction ops generalizing w with
  | nil => simp [Bio.run] at hr; exact hr ▸ h
  | cons op ops ih =>
    simp only [Bio.run] at hr
    cases hs : Bio.step w op with
    | none => simp [hs] at hr
    | some w2 =>
      simp only [hs, Option.bind] at hr
      exact ih (Reachable.step op h hs) hr


/-! ## Uniqueness of live blocks -/

theorem after_reachable (ops : List Op) (nbuf : Nat) (disk : Nat → Nat → Data) :
    Reachable (after ops nbuf disk) := by
  unfold after
  cases h : run (binit nbuf disk) ops with
  | none => exact Reachable.init nbuf disk
  | some w => exact (Reachable.init nbuf disk).run h

/-- C1. In every state reached from `binit` by calls of `bread`, `bwrite`, `brelse`,
`bpin`, `bunpin` (and stores into the data by the holder) that meet the preconditions
of the interface and are executed one after the other, two distinct slots with
`refcnt > 0` never hold the same `(dev, blockno)`. -/
theorem live_blocks_unique (w : World) (hw : Reachable w) (i j : Nat) (hij : i ≠ j)
    (hi : 0 < (w.buf i).refcnt) (hj : 0 < (w.buf j).refcnt) :
    ¬ ((w.buf i).dev = (w.buf j).dev ∧ (w.buf i).blockno = (w.buf j).blockno) := by
  rintro ⟨hd, hb⟩
  have I := hw.inv
  have h1 := I.first_of_valid (I.valid_of_lock (Or.inr (Nat.pos_iff_ne_zero.mp hi)))
  have h2 := I.first_of_valid (I.valid_of_lock (Or.inr (Nat.pos_iff_ne_zero.mp hj)))
  rw [hd, hb, h2] at h1
  exact hij (Option.some.inj h1).symm

/-- C1, at the state in which one process holds the blocks 0 and 1 of device 1. -/
theorem live_blocks_unique_witness :
    0 < ((after [.bread 1 1 0, .bread 1 1 1] 30 disk0).buf 0).refcnt ∧
    0 < ((after [.bread 1 1 0, .bread 1 1 1] 30 disk0).buf 1).refcnt ∧
    ¬ (((after [.bread 1 1 0, .bread 1 1 1] 30 disk0).buf 0).dev =
        ((after [.bread 1 1 0, .bread 1 1 1] 30 disk0).buf 1).dev ∧
      ((after [.bread 1 1 0, .bread 1 1 1] 30 disk0).buf 0).blockno =
        ((after [.bread 1 1 0, .bread 1 1 1] 30 disk0).buf 1).blockno) :=
  ⟨by decide, by decide,
    live_blocks_unique _ (after_reachable _ 30 disk0) 0 1 (by decide) (by decide) (by decide)⟩


/-! ## The reference counts do not wrap around -/

theorem uinc_eq {x : Nat} (h : x + 1 < UINT) : uinc x = x + 1 := by
  unfold uinc; exact Nat.mod_eq_of_lt h

theorem udec_eq {x : Nat} (h1 : 0 < x) (h2 : x < UINT) : udec x = x - 1 := by
  unfold udec
  have : x + (UINT - 1) = (x - 1) + UINT := by unfold UINT at *; omega
  rw [this, Nat.add_mod_right]
  exact Nat.mod_eq_of_lt (by omega)

theorem brelse_drop_buf (w : World) (b : Nat) :
    (brelse_drop (releasesleep w b) b).buf =
      setAt w.buf b { w.buf b with lock := none, refcnt := udec (w.buf b).refcnt } := by
  unfold brelse_drop releasesleep
  simp only [setAt_same, setAt_setAt]
  split <;> rfl

theorem brelse_drop_nbuf (w : World) (b : Nat) :
    (brelse_drop (releasesleep w b) b).nbuf = w.nbuf := by
  unfold brelse_drop releasesleep
  simp only [setAt_same, setAt_setAt]
  split <;> rfl

theorem brelse_drop_disk (w : World) (b : Nat) :
    (brelse_drop (releasesleep w b) b).disk = w.disk := by
  unfold brelse_drop releasesleep
  simp only [setAt_same, setAt_setAt]
  split <;> rfl

theorem brelse_drop_log (w : World) (b : Nat) :
    (brelse_drop (releasesleep w b) b).log = w.log := by
  unfold brelse_drop releasesleep
  simp only [setAt_same, setAt_setAt]
  split <;> rfl

theorem brelse_drop_head (w : World) (b : Nat) :
    (brelse_drop (releasesleep w b) b).head =
      if udec (w.buf b).refcnt = 0 then
        link_front (unlink w.head b) ((w.buf b).blockno % NBUCKET) b
      else w.head := by
  unfold brelse_drop releasesleep
  simp only [setAt_same, setAt_setAt]
  split <;> rfl

theorem drop_buf (w : World) (b : Nat) :
    (brelse_drop w b).buf =
      setAt w.buf b { w.buf b with refcnt := udec (w.buf b).refcnt } := by
  unfold brelse_drop
  simp only [setAt_same]
  split <;> rfl

theorem drop_nbuf (w : World) (b : Nat) : (brelse_drop w b).nbuf = w.nbuf := by
  unfold brelse_drop
  simp only [setAt_same]
  split <;> rfl

theorem drop_head (w : World) (b : Nat) :
    (brelse_drop w b).head =
      if udec (w.buf b).refcnt = 0 then
        link_front (unlink w.head b) ((w.buf b).blockno % NBUCKET) b
      else w.head := by
  unfold brelse_drop
  simp only [setAt_same]
  split <;> rfl

theorem countP_erase_of_neg {α : Type} [BEq α] [LawfulBEq α] (p : α → Bool) (l : List α)
    (e : α) (he : p e = false) : (l.erase e).countP p = l.countP p := by
  induction l with
  | nil => rfl
  | cons a l ih =>
    rw [List.erase_cons]
    by_cases h : (a == e) = true
    · have : a = e := eq_of_beq h
      rw [if_pos h, List.countP_cons, this, he]
      simp
    · rw [if_neg h, List.countP_cons, List.countP_cons, ih]

theorem countP_erase_of_pos {α : Type} [BEq α] [LawfulBEq α] (p : α → Bool) (l : List α)
    (e : α) (hm : e ∈ l) (he : p e = true) : (l.erase e).countP p + 1 = l.countP p := by
  induction l with
  | nil => simp at hm
  | cons a l ih =>
    rw [List.erase_cons]
    by_cases h : (a == e) = true
    · have : a = e := eq_of_beq h
      rw [if_pos h, List.countP_cons, this, he]
      simp
    · rw [if_neg h, List.countP_cons, List.countP_cons]
      have hne : e ≠ a := fun e1 => h (by rw [e1]; exact beq_self_eq_true a)
      have hm1 : e ∈ l := by
        rcases List.mem_cons.mp hm with h1 | h1
        · exact absurd h1 hne
        · exact h1
      have := ih hm1
      omega

theorem waiters_cons (e : Nat × Call) (cs : List (Nat × Call)) (i : Nat) :
    waiters (e :: cs) i = waiters cs i + (if e.2.pc = .done i then 1 else 0) := by
  unfold waiters
  rw [List.countP_cons]
  simp

theorem waiters_erase_of_ne (e : Nat × Call) (cs : List (Nat × Call)) (i : Nat)
    (h : e.2.pc ≠ .done i) : waiters (cs.erase e) i = waiters cs i := by
  unfold waiters
  exact countP_erase_of_neg (fun e => decide (e.2.pc = .done i)) cs e (decide_eq_false h)

theorem waiters_erase_of_eq (e : Nat × Call) (cs : List (Nat × Call)) (i : Nat)
    (hm : e ∈ cs) (h : e.2.pc = .done i) : waiters (cs.erase e) i + 1 = waiters cs i := by
  unfold waiters
  exact countP_erase_of_pos (fun e => decide (e.2.pc = .done i)) cs e hm (decide_eq_true h)

theorem releasing_cons (e : Nat × Nat) (rs : List (Nat × Nat)) (i : Nat) :
    releasing (e :: rs) i = releasing rs i + (if e.2 = i then 1 else 0) := by
  unfold releasing
  rw [List.countP_cons]
  simp

theorem releasing_erase_of_ne (e : Nat × Nat) (rs : List (Nat × Nat)) (i : Nat)
    (h : e.2 ≠ i) : releasing (rs.erase e) i = releasing rs i := by
  unfold releasing
  exact countP_erase_of_neg (fun e => decide (e.2 = i)) rs e (decide_eq_false h)

theorem releasing_erase_of_eq (e : Nat × Nat) (rs : List (Nat × Nat)) (i : Nat)
    (hm : e ∈ rs) (h : e.2 = i) : releasing (rs.erase e) i + 1 = releasing rs i := by
  unfold releasing
  exact countP_erase_of_pos (fun e => decide (e.2 = i)) rs e hm (decide_eq_true h)

theorem binit_counted (nbuf : Nat) (disk : Nat → Nat → Data) :
    Counted ⟨binit nbuf disk, [], []⟩ 0 := by
  intro i; simp [binit, zeroBuf, owed, holders, waiters, releasing]

/-- One step under the strengthened precondition changes every `refcnt` by at most one,
as long as fewer than `2^32 - 1` steps were made before. -/
theorem sys_stepS_counted {s s1 : Sys} {ev : Ev} {n : Nat} (K : Counted s n)
    (hn : n + 1 < UINT) (h : sys_stepS s ev = some s1) :
    Counted s1 (n + 1) ∧
      ∀ i, (s1.w.buf i).refcnt ≤ (s.w.buf i).refcnt + 1 ∧
        (s.w.buf i).refcnt ≤ (s1.w.buf i).refcnt + 1 := by
  unfold sys_stepS at h
  split at h
  case isFalse => exact absurd h (by simp)
  case isTrue hp =>
  have key : ∀ (b : Nat) (v : buf), s1.w.buf = setAt s.w.buf b v →
      (∀ i, i ≠ b → waiters s1.calls i = waiters s.calls i) →
      (∀ i, i ≠ b → releasing s1.rels i = releasing s.rels i) →
      ((if v.lock = none then 0 else 1) + waiters s1.calls b + releasing s1.rels b
        ≤ v.refcnt) →
      v.refcnt ≤ (s.w.buf b).refcnt + 1 → (s.w.buf b).refcnt ≤ v.refcnt + 1 →
      Counted s1 (n + 1) ∧ ∀ i, (s1.w.buf i).refcnt ≤ (s.w.buf i).refcnt + 1 ∧
        (s.w.buf i).refcnt ≤ (s1.w.buf i).refcnt + 1 := by
    intro b v hbuf hw hr h1 h2 h3
    have hb := (K b).2
    constructor
    · intro i
      unfold owed holders
      rw [hbuf]
      by_cases hib : i = b
      · subst hib; simp only [setAt_same]; exact ⟨h1, by omega⟩
      · simp only [setAt_ne _ _ hib]
        rw [hw i hib, hr i hib]
        exact ⟨(K i).1, Nat.le_succ_of_le (K i).2⟩
    · intro i
      rw [hbuf]
      by_cases hib : i = b
      · subst hib; simp only [setAt_same]; exact ⟨h2, h3⟩
      · simp only [setAt_ne _ _ hib]; omega
  have hold : ∀ b, (if (s.w.buf b).lock = none then 0 else 1) = holders s.w b := fun _ => rfl
  have hK : ∀ b, holders s.w b + waiters s.calls b + releasing s.rels b ≤ (s.w.buf b).refcnt :=
    fun b => (K b).1
  cases ev with
  | bread pid dev blockno =>
    simp only [sys_step] at h
    cases hl : bget_lookup s.w dev blockno with
    | some b =>
      simp only [hl, Option.some.injEq] at h
      subst h
      have hk := hK b
      have hk2 := (K b).2
      refine key b _ rfl ?_ (fun _ _ => rfl) ?_ ?_ ?_
      · intro i hi
        rw [waiters_cons]
        simp [Ne.symm hi]
      · simp only [waiters_cons, if_true, hold]
        rw [uinc_eq (by omega)]; omega
      · simp only [bget_hit]; rw [uinc_eq (by omega)]
      · simp only [bget_hit]; rw [uinc_eq (by omega)]; omega
    | none =>
      simp only [hl, Option.some.injEq] at h
      subst h
      refine key 0 (s.w.buf 0) (by simp) ?_ (fun _ _ => rfl) ?_ (by omega) (by omega)
      · intro i _; rw [waiters_cons]; simp
      · rw [waiters_cons]; simp only [hold]
        have := hK 0
        simpa using this
  | recycle pid dev blockno =>
    simp only [sys_step] at h
    split at h
    case isFalse => exact absurd h (by simp)
    case isTrue hm =>
    unfold bget_recycle at h
    cases hs : bget_scan s.w blockno with
    | none => simp [hs] at h
    | some b =>
      simp only [hs, Option.some.injEq] at h
      subst h
      have h0 := (bget_scan_some hs).1
      have hk := hK b
      rw [h0] at hk
      have hh : holders s.w b = 0 := by omega
      have hw0 : waiters s.calls b = 0 := by omega
      have hr0 : releasing s.rels b = 0 := by omega
      refine key b _ rfl ?_ (fun _ _ => rfl) ?_ ?_ ?_
      · intro i hi
        rw [waiters_cons, waiters_erase_of_ne _ _ _ (by simp)]
        simp [Ne.symm hi]
      · rw [waiters_cons, waiters_erase_of_ne _ _ _ (by simp), hw0, hr0]
        unfold holders at hh
        simp only [if_true]
        split at hh
        · next e => simp [e]
        · omega
      · simp
      · simp [h0]
  | acquire pid dev blockno b =>
    simp only [sys_step] at h
    split at h
    case isFalse => exact absurd h (by simp)
    case isTrue hm =>
    simp only [Option.some.injEq] at h
    subst h
    have hk := hK b
    have hh : holders s.w b = 0 := by simp [holders, hm.2]
    have hw1 := waiters_erase_of_eq _ _ b hm.1 rfl
    refine key b (filled s.w { s.w.buf b with lock := some pid }) ?_ ?_ (fun _ _ => rfl)
      ?_ ?_ ?_
    · rw [bread_fill_buf]; simp [lock_by, filled]
    · intro i hi
      exact waiters_erase_of_ne _ _ _ (by simp [Ne.symm hi])
    · rw [filled_lock, filled_refcnt]
      simp only [reduceCtorEq, if_false]
      omega
    · rw [filled_refcnt]; simp
    · rw [filled_refcnt]; simp
  | bwrite pid b =>
    simp only [sys_step, bwrite] at h
    split at h
    · simp only [Outcome.world?, Option.map_some', Option.some.injEq] at h
      subst h
      refine key b (s.w.buf b) (by simp [virtio_disk_rw]) (fun _ _ => rfl) (fun _ _ => rfl)
        (hK b) (by omega) (by omega)
    · simp [Outcome.world?] at h
  | brelse pid b =>
    simp only [sys_step] at h
    split at h
    case isFalse => exact absurd h (by simp)
    case isTrue hh =>
    simp only [Option.some.injEq] at h
    subst h
    unfold holdingsleep at hh
    have h1 := hK b
    have hh1 : holders s.w b = 1 := by simp [holders, hh]
    refine key b { s.w.buf b with lock := none } rfl (fun _ _ => rfl) ?_ ?_ (by simp)
      (by simp)
    · intro i hi
      rw [releasing_cons]
      simp [Ne.symm hi]
    · rw [releasing_cons]
      simp only [if_true]
      omega
  | drop pid b =>
    simp only [sys_step] at h
    split at h
    case isFalse => exact absurd h (by simp)
    case isTrue hm =>
    simp only [Option.some.injEq] at h
    subst h
    have h1 := hK b
    have h2 := (K b).2
    have hr1 := releasing_erase_of_eq _ _ b hm rfl
    refine key b _ (drop_buf s.w b) (fun _ _ => rfl) ?_ ?_ ?_ ?_
    · intro i hi
      exact releasing_erase_of_ne _ _ _ (by simp [Ne.symm hi])
    all_goals simp only [hold]
    all_goals rw [udec_eq (by omega) (by omega)]
    all_goals omega
  | bpin b =>
    simp only [sys_step, Option.some.injEq] at h
    subst h
    have h1 := hK b
    have h2 := (K b).2
    refine key b _ rfl (fun _ _ => rfl) (fun _ _ => rfl) ?_ ?_ ?_
    all_goals simp only [hold]
    all_goals rw [uinc_eq (by omega)]
    all_goals omega
  | bunpin b =>
    simp only [sys_step, Option.some.injEq] at h
    subst h
    have h1 := hK b
    have h2 := (K b).2
    have h3 : holders s.w b + waiters s.calls b + releasing s.rels b < (s.w.buf b).refcnt := hp
    refine key b _ rfl (fun _ _ => rfl) (fun _ _ => rfl) ?_ ?_ ?_
    all_goals simp only [hold]
    all_goals rw [udec_eq (by omega) (by omega)]
    all_goals omega
  | store pid b d =>
    simp only [sys_step, Option.some.injEq] at h
    subst h
    exact key b _ rfl (fun _ _ => rfl) (fun _ _ => rfl) (hK b) (by simp) (by simp)

theorem sys_runS_counted {s s1 : Sys} {evs : List Ev} {n : Nat} (K : Counted s n)
    (hn : n + evs.length < UINT) (h : sys_runS s evs = some s1) :
    Counted s1 (n + evs.length) := by
  induction evs generalizing s n with
  | nil => simp [sys_runS] at h; subst h; simpa using K
  | cons ev evs ih =>
    simp only [sys_runS] at h
    cases hs : sys_stepS s ev with
    | none => simp [hs] at h
    | some s2 =>
      simp only [hs, Option.bind] at h
      simp only [List.length_cons] at hn ⊢
      have := ih (sys_stepS_counted K (by omega) hs).1 (by omega) h
      rwa [Nat.add_assoc, Nat.add_comm 1] at this

theorem run_after {ops : List Op} {nbuf : Nat} {disk : Nat → Nat → Data}
    (h : (run (binit nbuf disk) ops).isSome) :
    run (binit nbuf disk) ops = some (after ops nbuf disk) := by
  unfold after
  obtain ⟨w, hw⟩ := Option.isSome_iff_exists.mp h
  rw [hw]; rfl

theorem run_append (w : World) (ops1 ops2 : List Op) :
    run w (ops1 ++ ops2) = (run w ops1).bind (fun w1 => run w1 ops2) := by
  induction ops1 generalizing w with
  | nil => simp [run]
  | cons op ops ih =>
    simp only [List.cons_append, run]
    cases step w op with
    | none => simp
    | some w1 => simp [ih]

/-- The content lock of `b` stays out of the hands of `pid` as long as no call hands
the slot to `pid`. -/
theorem not_holding_run {pid b : Nat} {w w1 : World} {ops : List Op}
    (h0 : ¬ holdingsleep w pid b) (hr : run w ops = some w1)
    (hn : noReacquire pid b w ops = true) : ¬ holdingsleep w1 pid b := by
  induction ops generalizing w with
  | nil => simp [run] at hr; exact hr ▸ h0
  | cons op ops ih =>
    simp only [run] at hr
    cases hs : step w op with
    | none => simp [hs] at hr
    | some w2 =>
      simp only [hs, Option.bind] at hr
      simp only [noReacquire, hs, Bool.and_eq_true, Bool.not_eq_true'] at hn
      refine ih ?_ hr hn.2
      have hn1 := hn.1
      unfold step at hs
      split at hs
      case isFalse => exact absurd hs (by simp)
      case isTrue hp =>
      unfold holdingsleep at h0 ⊢
      cases op with
      | bread q dev blockno =>
        simp only [exec] at hs
        cases hb : bread w q dev blockno with
        | panic w3 m => simp [hb, Outcome.world?] at hs
        | sleeps w3 m => simp [hb, Outcome.world?] at hs
        | ok w3 c =>
          simp only [hb, Outcome.world?, Option.some.injEq] at hs
          subst hs
          simp only [reacquires, hb, Outcome.ret?, Option.some.injEq, Bool.and_eq_false_iff,
            decide_eq_false_iff_not] at hn1
          have hbuf : ∃ v : buf, w3.buf = setAt w.buf c v ∧ v.lock = some q := by
            rcases bread_ok hb with ⟨_, _, rfl⟩ | ⟨_, _, _, rfl⟩
            · exact ⟨_, hit_buf w q c, by rw [filled_lock]⟩
            · exact ⟨_, miss_buf w q dev blockno c, rfl⟩
          obtain ⟨v, hv1, hv2⟩ := hbuf
          rw [hv1]
          by_cases hcb : b = c
          · subst hcb
            simp only [setAt_same, hv2, Option.some.injEq]
            rcases hn1 with h | h
            · exact h
            · exact absurd rfl h
          · simpa [setAt_ne _ _ hcb] using h0
      | bwrite q c =>
        simp only [exec, bwrite] at hs
        split at hs
        · simp only [Outcome.world?, Option.some.injEq] at hs
          subst hs
          simpa [virtio_disk_rw] using h0
        · simp [Outcome.world?] at hs
      | brelse q c =>
        simp only [exec, brelse] at hs
        split at hs
        case isFalse => simp [Outcome.world?] at hs
        case isTrue hh =>
        simp only [Outcome.world?, Option.some.injEq] at hs
        subst hs
        rw [brelse_drop_buf]
        by_cases hcb : b = c
        · subst hcb; simp
        · simpa [setAt_ne _ _ hcb] using h0
      | bpin c =>
        simp only [exec, Option.some.injEq] at hs
        subst hs
        by_cases hcb : b = c
        · subst hcb; simpa [bpin] using h0
        · simpa [bpin, setAt_ne _ _ hcb] using h0
      | bunpin c =>
        simp only [exec, Option.some.injEq] at hs
        subst hs
        by_cases hcb : b = c
        · subst hcb; simpa [bunpin] using h0
        · simpa [bunpin, setAt_ne _ _ hcb] using h0
      | store q c d =>
        simp only [exec, Option.some.injEq] at hs
        subst hs
        by_cases hcb : b = c
        · subst hcb; simpa [store] using h0
        · simpa [store, setAt_ne _ _ hcb] using h0

/-- C7. `bwrite(b)` and `brelse(b)` call `panic` exactly when the caller does
not hold the content lock of `b`, and then in the unchanged state: no disk write was
issued and `refcnt`, the bucket lists and the locks are as before. In particular a
second `brelse(b)` by the same caller calls `panic`, in the unchanged state, when no
`bread` has handed the slot `b` to that caller in between. -/
theorem lock_discipline (w : World) (pid b : Nat) :
    ((∃ w1 m, bwrite w pid b = .panic w1 m) ↔ ¬ holdingsleep w pid b) ∧
    ((∃ w1 m, brelse w pid b = .panic w1 m) ↔ ¬ holdingsleep w pid b) ∧
    (¬ holdingsleep w pid b →
      bwrite w pid b = .panic w .bwrite ∧ brelse w pid b = .panic w .brelse) ∧
    (∀ (w1 w2 : World) (ops : List Op), brelse w pid b = .ok w1 () → run w1 ops = some w2 →
      noReacquire pid b w1 ops = true → brelse w2 pid b = .panic w2 .brelse) := by
  refine ⟨?_, ?_, ?_, ?_⟩
  · unfold bwrite
    by_cases h : holdingsleep w pid b <;> simp [h]
  · unfold brelse
    by_cases h : holdingsleep w pid b <;> simp [h]
  · intro h
    simp [bwrite, brelse, h]
  · intro w1 w2 ops h1 h2 h3
    have h0 : ¬ holdingsleep w1 pid b := by
      unfold brelse at h1
      split at h1
      · injection h1 with h1 _
        subst h1
        unfold holdingsleep
        rw [brelse_drop_buf]; simp
      · simp at h1
    have := not_holding_run h0 h2 h3
    simp [brelse, this]


/-! ## The cache with calls in progress -/

theorem Linked.to_front {n : Nat} {hd : Nat → List Nat} (L : Linked n hd) {b k : Nat}
    (hb : b < n) (hk : k < NBUCKET) : Linked n (link_front (unlink hd b) k b) := by
  have hne : ∀ j x, x ∈ (hd j).erase b → x ≠ b := fun j x hx e =>
    (L.nodup j).not_mem_erase (e ▸ hx)
  have hsub : ∀ j x, x ∈ (hd j).erase b → x ∈ hd j := fun j x hx =>
    (List.erase_sublist b (hd j)).subset hx
  have hmem : ∀ j x, x ∈ link_front (unlink hd b) k b j →
      (x = b ∧ j = k) ∨ (x ≠ b ∧ x ∈ hd j) := by
    intro j x hx
    rw [link_front_apply] at hx
    split at hx
    · next h =>
      rcases List.mem_cons.mp hx with e | e
      · exact Or.inl ⟨e, h⟩
      · exact Or.inr ⟨hne _ _ e, h ▸ hsub _ _ e⟩
    · exact Or.inr ⟨hne _ _ hx, hsub _ _ hx⟩
  refine ⟨?_, ?_, ?_, ?_⟩
  · intro j i hi
    rcases hmem j i hi with ⟨e1, e2⟩ | ⟨_, h⟩
    · exact ⟨e1 ▸ hb, e2 ▸ hk⟩
    · exact L.mem_lt j i h
  · intro i hi
    by_cases hib : i = b
    · exact ⟨k, by rw [link_front_apply, hib]; simp⟩
    · obtain ⟨j, hj⟩ := L.cover i hi
      refine ⟨j, ?_⟩
      rw [link_front_apply]
      have : i ∈ (hd j).erase b := (List.mem_erase_of_ne hib).mpr hj
      split
      · next h => exact List.mem_cons_of_mem _ (h ▸ this)
      · exact this
  · intro j
    rw [link_front_apply]
    split
    · exact List.nodup_cons.mpr ⟨(L.nodup _).not_mem_erase, (L.nodup _).erase b⟩
    · exact (L.nodup _).erase b
  · intro j j1 i h1 h2
    rcases hmem j i h1 with ⟨e1, e2⟩ | ⟨e1, e2⟩ <;> rcases hmem j1 i h2 with ⟨f1, f2⟩ | ⟨f1, f2⟩
    · rw [e2, f2]
    · exact absurd e1 f1
    · exact absurd f1 e1
    · exact L.disj j j1 i e2 f2

/-- A slot other than the one moved stays in its list. -/
theorem mem_link_front_of_ne {hd : Nat → List Nat} {b k i j : Nat} (hib : i ≠ b)
    (h : i ∈ hd j) : i ∈ link_front (unlink hd b) k b j := by
  rw [link_front_apply]
  have : i ∈ (hd j).erase b := (List.mem_erase_of_ne hib).mpr h
  split
  · next e => exact List.mem_cons_of_mem _ (e ▸ this)
  · exact this

theorem mem_link_front_self (hd : Nat → List Nat) (b k : Nat) :
    b ∈ link_front (unlink hd b) k b k := by
  rw [link_front_apply]; simp

theorem sys_binit_inv (nbuf : Nat) (disk : Nat → Nat → Data) :
    Sys.Inv ⟨binit nbuf disk, [], []⟩ := by
  have I := binit_inv nbuf disk
  refine ⟨⟨I.mem_lt, I.cover, I.nodup, I.disj⟩, I.rc_lt, ?_⟩
  intro i h
  rcases h with h | ⟨e, he, _⟩ | ⟨e, he, _⟩
  · simp [binit, zeroBuf] at h
  · simp at he
  · simp at he

/-- Every step keeps the invariant of the cache with calls in progress. -/
theorem sys_step_inv {s s1 : Sys} {ev : Ev} (I : s.Inv) (h : sys_step s ev = some s1) :
    s1.Inv := by
  have same : ∀ (b : Nat) (v : buf) (cs : List (Nat × Call)) (rs : List (Nat × Nat)),
      v.blockno = (s.w.buf b).blockno → v.refcnt < UINT →
      (v.lock ≠ none → b ∈ s.w.head ((s.w.buf b).blockno % NBUCKET)) →
      (∀ i, ((∃ e ∈ cs, e.2.pc = .done i) ∨ ∃ e ∈ rs, e.2 = i) →
        i ∈ s.w.head ((s.w.buf i).blockno % NBUCKET)) →
      Sys.Inv ⟨{ s.w with buf := setAt s.w.buf b v }, cs, rs⟩ := by
    intro b v cs rs hblk hrc hlock hcs
    refine ⟨I.linked, ?_, ?_⟩
    · intro i
      by_cases hib : i = b
      · subst hib; simpa using hrc
      · simpa [setAt_ne _ _ hib] using I.rc_lt i
    · intro i hi
      by_cases hib : i = b
      · subst hib
        simp only [setAt_same] at hi ⊢
        rw [hblk]
        rcases hi with hi | hi
        · exact hlock hi
        · exact hcs i hi
      · simp only [setAt_ne _ _ hib] at hi ⊢
        rcases hi with hi | hi
        · exact I.home i (Or.inl hi)
        · exact hcs i hi
  have old : ∀ i, ((∃ e ∈ s.calls, e.2.pc = .done i) ∨ ∃ e ∈ s.rels, e.2 = i) →
      i ∈ s.w.head ((s.w.buf i).blockno % NBUCKET) := fun i hi => I.home i (Or.inr hi)
  have keep : ∀ b, (s.w.buf b).lock ≠ none → b ∈ s.w.head ((s.w.buf b).blockno % NBUCKET) :=
    fun b hb => I.home b (Or.inl hb)
  cases ev with
  | bread pid dev blockno =>
    simp only [sys_step] at h
    cases hl : bget_lookup s.w dev blockno with
    | some b =>
      simp only [hl, Option.some.injEq] at h
      subst h
      have hm := List.mem_of_find?_eq_some hl
      have hp := List.find?_some hl
      simp only [decide_eq_true_eq] at hp
      refine same b _ _ _ rfl (Nat.mod_lt _ (by decide)) (keep b) ?_
      intro i hi
      rcases hi with ⟨e, he, hpc⟩ | hi
      · rcases List.mem_cons.mp he with rfl | he
        · simp only [Pc.done.injEq] at hpc
          subst hpc
          rw [hp.2]; exact hm
        · exact old i (Or.inl ⟨e, he, hpc⟩)
      · exact old i (Or.inr hi)
    | none =>
      simp only [hl, Option.some.injEq] at h
      subst h
      refine ⟨I.linked, I.rc_lt, ?_⟩
      intro i hi
      rcases hi with hi | ⟨e, he, hpc⟩ | hi
      · exact keep i hi
      · rcases List.mem_cons.mp he with rfl | he
        · simp at hpc
        · exact old i (Or.inl ⟨e, he, hpc⟩)
      · exact old i (Or.inr hi)
  | recycle pid dev blockno =>
    simp only [sys_step] at h
    split at h
    case isFalse => exact absurd h (by simp)
    case isTrue hm =>
    unfold bget_recycle at h
    cases hs : bget_scan s.w blockno with
    | none => simp [hs] at h
    | some b =>
      simp only [hs, Option.some.injEq] at h
      subst h
      obtain ⟨_, j, _, hmem⟩ := bget_scan_some hs
      have hb := (I.linked.mem_lt _ _ hmem).1
      refine ⟨I.linked.to_front hb (Nat.mod_lt _ (by decide)), ?_, ?_⟩
      · intro i
        by_cases hib : i = b
        · subst hib; simp [bget_take, UINT]
        · simpa [bget_take, setAt_ne _ _ hib] using I.rc_lt i
      · intro i hi
        by_cases hib : i = b
        · subst hib
          simp only [bget_take, setAt_same]
          exact mem_link_front_self _ _ _
        · simp only [bget_take, setAt_ne _ _ hib] at hi ⊢
          apply mem_link_front_of_ne hib
          rcases hi with hi | ⟨e, he, hpc⟩ | hi
          · exact keep i hi
          · rcases List.mem_cons.mp he with rfl | he
            · simp only [Pc.done.injEq] at hpc
              exact absurd hpc.symm hib
            · exact old i (Or.inl ⟨e, (List.erase_sublist _ _).subset he, hpc⟩)
          · exact old i (Or.inr hi)
  | acquire pid dev blockno b =>
    simp only [sys_step] at h
    split at h
    case isFalse => exact absurd h (by simp)
    case isTrue hm =>
    simp only [Option.some.injEq] at h
    subst h
    have hb : b ∈ s.w.head ((s.w.buf b).blockno % NBUCKET) := old b (Or.inl ⟨_, hm.1, rfl⟩)
    have := same b (filled s.w { s.w.buf b with lock := some pid })
      (s.calls.erase (pid, ⟨dev, blockno, .done b⟩)) s.rels (by rw [filled_blockno])
      (by rw [filled_refcnt]; exact I.rc_lt b) (fun _ => hb)
      (fun i hi => by
        rcases hi with ⟨e, he, hpc⟩ | hi
        · exact old i (Or.inl ⟨e, (List.erase_sublist _ _).subset he, hpc⟩)
        · exact old i (Or.inr hi))
    refine ⟨?_, ?_, ?_⟩
    · simpa [bread_fill_head, bread_fill_nbuf, lock_by] using this.linked
    · intro i
      have := this.rc_lt i
      rw [bread_fill_buf]
      simpa [lock_by, filled] using this
    · intro i
      have := this.home i
      rw [bread_fill_buf, bread_fill_head]
      simpa [lock_by, filled] using this
  | bwrite pid b =>
    simp only [sys_step, bwrite] at h
    split at h
    · simp only [Outcome.world?, Option.map_some', Option.some.injEq] at h
      subst h
      exact ⟨I.linked, I.rc_lt, I.home⟩
    · simp [Outcome.world?] at h
  | brelse pid b =>
    simp only [sys_step] at h
    split at h
    case isFalse => exact absurd h (by simp)
    case isTrue hh =>
    simp only [Option.some.injEq] at h
    subst h
    have hl : (s.w.buf b).lock = some pid := hh
    have hb : b ∈ s.w.head ((s.w.buf b).blockno % NBUCKET) := keep b (by simp [hl])
    refine same b { s.w.buf b with lock := none } _ _ rfl (I.rc_lt b) (fun _ => hb) ?_
    intro i hi
    rcases hi with hi | ⟨e, he, hpc⟩
    · exact old i (Or.inl hi)
    · rcases List.mem_cons.mp he with rfl | he
      · simp only at hpc
        subst hpc; exact hb
      · exact old i (Or.inr ⟨e, he, hpc⟩)
  | drop pid b =>
    simp only [sys_step] at h
    split at h
    case isFalse => exact absurd h (by simp)
    case isTrue hm =>
    simp only [Option.some.injEq] at h
    subst h
    have hb : b ∈ s.w.head ((s.w.buf b).blockno % NBUCKET) := old b (Or.inr ⟨_, hm, rfl⟩)
    have hbn := (I.linked.mem_lt _ _ hb).1
    refine ⟨?_, ?_, ?_⟩
    · rw [drop_head, drop_nbuf]
      split
      · exact I.linked.to_front hbn (Nat.mod_lt _ (by decide))
      · exact I.linked
    · intro i
      rw [drop_buf]
      by_cases hib : i = b
      · subst hib; simp only [setAt_same]; exact Nat.mod_lt _ (by decide)
      · simpa [setAt_ne _ _ hib] using I.rc_lt i
    · intro i hi
      rw [drop_buf] at hi ⊢
      rw [drop_head]
      by_cases hib : i = b
      · subst hib
        simp only [setAt_same]
        split
        · exact mem_link_front_self _ _ _
        · exact hb
      · simp only [setAt_ne _ _ hib] at hi ⊢
        have hi1 : i ∈ s.w.head ((s.w.buf i).blockno % NBUCKET) := by
          rcases hi with hi | ⟨e, he, hpc⟩ | ⟨e, he, hpc⟩
          · exact keep i hi
          · exact old i (Or.inl ⟨e, he, hpc⟩)
          · exact old i (Or.inr ⟨e, (List.erase_sublist _ _).subset he, hpc⟩)
        split
        · exact mem_link_front_of_ne hib hi1
        · exact hi1
  | bpin b =>
    simp only [sys_step, Option.some.injEq] at h
    subst h
    exact same b _ _ _ rfl (Nat.mod_lt _ (by decide)) (keep b) old
  | bunpin b =>
    simp only [sys_step, Option.some.injEq] at h
    subst h
    exact same b _ _ _ rfl (Nat.mod_lt _ (by decide)) (keep b) old
  | store pid b d =>
    simp only [sys_step, Option.some.injEq] at h
    subst h
    exact same b _ _ _ rfl (I.rc_lt b) (keep b) old

/-- The invariant holds in every state reached by steps of the processes. -/
theorem SysReach.sys_inv {s : Sys} (h : SysReach s) : s.Inv := by
  induction h with
  | init nbuf disk => exact sys_binit_inv nbuf disk
  | step ev _ hs ih => exact sys_step_inv ih hs

/-- A call executed as one step is made of steps of the processes. -/
theorem SysReach.of_step {w w1 : World} {op : Op} {cs : List (Nat × Call)}
    {rs : List (Nat × Nat)} (hs : SysReach ⟨w, cs, rs⟩) (h : Bio.step w op = some w1) :
    SysReach ⟨w1, cs, rs⟩ := by
  unfold Bio.step at h
  split at h
  case isFalse => exact absurd h (by simp)
  case isTrue hp =>
  cases op with
  | bread pid dev blockno =>
    simp only [exec] at h
    cases hb : Bio.bread w pid dev blockno with
    | panic w2 m => simp [hb, Outcome.world?] at h
    | sleeps w2 m => simp [hb, Outcome.world?] at h
    | ok w2 b =>
      simp only [hb, Outcome.world?, Option.some.injEq] at h
      subst h
      rcases bread_ok hb with ⟨hl, hf, rfl⟩ | ⟨hl, hsc, hf, rfl⟩
      · have s1 : SysReach ⟨bget_hit w b, (pid, ⟨dev, blockno, .done b⟩) :: cs, rs⟩ :=
          SysReach.step (.bread pid dev blockno) hs (by simp [sys_step, hl])
        refine SysReach.step (.acquire pid dev blockno b) s1 ?_
        simp [sys_step, bget_hit, hf, lock_by]
      · have s1 : SysReach ⟨w, (pid, ⟨dev, blockno, .recycle⟩) :: cs, rs⟩ :=
          SysReach.step (.bread pid dev blockno) hs (by simp [sys_step, hl])
        have s2 : SysReach ⟨bget_take w dev blockno b,
            (pid, ⟨dev, blockno, .done b⟩) :: cs, rs⟩ :=
          SysReach.step (.recycle pid dev blockno) s1 (by simp [sys_step, bget_recycle, hsc])
        refine SysReach.step (.acquire pid dev blockno b) s2 ?_
        simp [sys_step, bget_take, hf, lock_by]
  | bwrite pid b =>
    refine SysReach.step (.bwrite pid b) hs ?_
    simp only [exec] at h
    simp [sys_step, h]
  | brelse pid b =>
    have hh : holdingsleep w pid b := hp.2
    simp only [exec, brelse, hh, if_true, Outcome.world?, Option.some.injEq] at h
    subst h
    have s1 : SysReach ⟨releasesleep w b, cs, (pid, b) :: rs⟩ :=
      SysReach.step (.brelse pid b) hs (by simp [sys_step, hh])
    refine SysReach.step (.drop pid b) s1 ?_
    simp [sys_step]
  | bpin b =>
    simp only [exec, Option.some.injEq] at h
    subst h
    exact SysReach.step (.bpin b) hs rfl
  | bunpin b =>
    simp only [exec, Option.some.injEq] at h
    subst h
    exact SysReach.step (.bunpin b) hs rfl
  | store pid b d =>
    simp only [exec, Option.some.injEq] at h
    subst h
    exact SysReach.step (.store pid b d) hs rfl

/-- Every state reached by calls executed one after the other is reached by steps of
the processes, with no call left in progress. -/
theorem Reachable.sys {w : World} (h : Reachable w) : SysReach ⟨w, [], []⟩ := by
  induction h with
  | init nbuf disk => exact SysReach.init nbuf disk
  | step op _ hs ih => exact ih.of_step hs

/-! ## The postconditions of `brelse` and of a hit of `bread` -/

/-- C9, amended. In every state in which the bucket of `blockno` links a slot that holds
`(dev, blockno)`, `bread` picks the first such slot `b` in list order and applies `++`
to its `refcnt` in `uint` arithmetic: exactly one more below `2^32 - 1`, and 0 at
`2^32 - 1`. If the content lock of `b` is free, the call returns `b` with the content
lock held by the caller, every bucket list, every other slot and the disk unchanged; the
driver is called, once and for a read of the block, exactly when `valid` was 0, and then
`data` is the block of the disk and `valid` is 1; when `valid` was not 0, `data` and
`valid` are the cached ones and the driver is not called. If the content lock is held,
by another process or by the caller, the call does not return: the caller sleeps on the
lock after the `refcnt++`, the lists, the other slots and the record of the driver calls
unchanged. -/
theorem bread_hit_post (w : World) (pid dev blockno x : Nat)
    (hx : x ∈ w.head (blockno % NBUCKET)) (hk : holds w.buf dev blockno x) :
    ∃ b as bs, w.head (blockno % NBUCKET) = as ++ b :: bs ∧
      holds w.buf dev blockno b ∧ (∀ a ∈ as, ¬ holds w.buf dev blockno a) ∧
      ((w.buf b).lock = none →
        ∃ w1, bread w pid dev blockno = .ok w1 b ∧
          (w1.buf b).refcnt = uinc (w.buf b).refcnt ∧
          ((w.buf b).refcnt + 1 < UINT → (w1.buf b).refcnt = (w.buf b).refcnt + 1) ∧
          ((w.buf b).refcnt + 1 = UINT → (w1.buf b).refcnt = 0) ∧
          (w1.buf b).lock = some pid ∧
          (w1.buf b).dev = dev ∧ (w1.buf b).blockno = blockno ∧
          w1.head = w.head ∧ (∀ i, i ≠ b → w1.buf i = w.buf i) ∧
          w1.nbuf = w.nbuf ∧ w1.disk = w.disk ∧
          ((w.buf b).valid = 0 →
            w1.log = w.log ++ [DiskEv.rd dev blockno] ∧
            (w1.buf b).data = w.disk dev blockno ∧ (w1.buf b).valid = 1) ∧
          ((w.buf b).valid ≠ 0 →
            w1.log = w.log ∧ (w1.buf b).data = (w.buf b).data ∧
            (w1.buf b).valid = (w.buf b).valid)) ∧
      (∀ q, (w.buf b).lock = some q →
        bread w pid dev blockno = .sleeps (bget_hit w b) b ∧
          ((bget_hit w b).buf b).refcnt = uinc (w.buf b).refcnt ∧
          (bget_hit w b).head = w.head ∧ (bget_hit w b).log = w.log ∧
          ∀ i, i ≠ b → (bget_hit w b).buf i = w.buf i) := by
  have hsome : (bget_lookup w dev blockno).isSome := by
    unfold bget_lookup
    rw [List.find?_isSome]
    exact ⟨x, hx, by simpa [holds] using hk⟩
  obtain ⟨b, hb⟩ := Option.isSome_iff_exists.mp hsome
  have hb1 := hb
  unfold bget_lookup at hb1
  obtain ⟨hp, as, bs, hl, hn⟩ := List.find?_eq_some.mp hb1
  have hpb : holds w.buf dev blockno b := by simpa [holds] using hp
  refine ⟨b, as, bs, hl, hpb, ?_, ?_, ?_⟩
  · intro a ha
    have := hn a ha
    intro hh
    simp [hh.1, hh.2] at this
  · intro hfree
    refine ⟨bread_fill (lock_by (bget_hit w b) pid b) b, ?_, ?_⟩
    · simp [bread, bget, hb, acquiresleep, bget_hit, hfree]
    · rw [hit_buf, hit_head, bread_fill_nbuf, bread_fill_disk, bread_fill_log]
      simp only [setAt_same, filled_refcnt, filled_lock, filled_dev, filled_blockno]
      refine ⟨trivial, fun h => uinc_eq h, fun h => by unfold uinc; rw [h]; exact Nat.mod_self _,
        trivial, hpb.1, hpb.2, trivial, ?_, rfl, rfl, ?_, ?_⟩
      · intro i hi; simp [setAt_ne _ _ hi]
      · intro h0
        simp [lock_by, bget_hit, filled, h0, hpb.1, hpb.2]
      · intro h0
        simp [lock_by, bget_hit, filled, h0]
  · intro q hq
    refine ⟨?_, by simp [bget_hit], rfl, rfl, ?_⟩
    · simp [bread, bget, hb, acquiresleep, bget_hit, hq]
    · intro i hi; simp [bget_hit, setAt_ne _ _ hi]


/-! ## Read after write -/

/-- The slot found by the scan is the last slot with `refcnt == 0` of one of the lists. -/
theorem bget_scan_last {w : World} {blockno b : Nat} (h : bget_scan w blockno = some b) :
    ∃ k as bs, w.head k = as ++ b :: bs ∧ (w.buf b).refcnt = 0 ∧
      ∀ y ∈ bs, (w.buf y).refcnt ≠ 0 := by
  unfold bget_scan at h
  obtain ⟨i, _, hf⟩ := List.exists_of_findSome?_eq_some h
  obtain ⟨hp, as, bs, hl, hn⟩ := find?_reverse_eq_some hf
  refine ⟨_, as, bs, hl, by simpa using hp, ?_⟩
  intro y hy
  have := hn y hy
  simpa using this

/-- The two kinds of calls: a miss of `bread`, which recycles the last slot with
`refcnt == 0` of a list for a block that its bucket does not hold; and all the others,
which keep the block of every slot, the slots that were handed out, and the members
of every list. -/
theorem step_shape {w w1 : World} {op : Op} (I : w.Inv) (h : step w op = some w1) :
    (∃ q d n c, op = .bread q d n ∧ bget_lookup w d n = none ∧
      w1.buf = setAt w.buf c ⟨1, d, n, some q, 1, w.disk d n⟩ ∧
      w1.head = link_front (unlink w.head c) (n % NBUCKET) c ∧
      ∃ k as bs, w.head k = as ++ c :: bs ∧ (w.buf c).refcnt = 0 ∧
        ∀ y ∈ bs, (w.buf y).refcnt ≠ 0) ∨
    ((∀ x, (w1.buf x).dev = (w.buf x).dev ∧ (w1.buf x).blockno = (w.buf x).blockno ∧
        ((w.buf x).valid ≠ 0 → (w1.buf x).valid ≠ 0)) ∧
      (∀ k x, x ∈ w1.head k ↔ x ∈ w.head k)) := by
  have h0 := h
  unfold step at h
  split at h
  case isFalse => exact absurd h (by simp)
  case isTrue hp =>
  have upd : ∀ (c : Nat) (v : buf), w1.buf = setAt w.buf c v → v.dev = (w.buf c).dev →
      v.blockno = (w.buf c).blockno → ((w.buf c).valid ≠ 0 → v.valid ≠ 0) →
      ∀ x, (w1.buf x).dev = (w.buf x).dev ∧ (w1.buf x).blockno = (w.buf x).blockno ∧
        ((w.buf x).valid ≠ 0 → (w1.buf x).valid ≠ 0) := by
    intro c v hbuf e1 e2 e3 x
    rw [hbuf]
    by_cases hxc : x = c
    · subst hxc; simp only [setAt_same]; exact ⟨e1, e2, e3⟩
    · refine ⟨?_, ?_, ?_⟩ <;> simp [setAt_ne _ _ hxc]
  cases op with
  | bread pid dev blockno =>
    simp only [exec] at h
    cases hb : bread w pid dev blockno with
    | panic w2 m => simp [hb, Outcome.world?] at h
    | sleeps w2 m => simp [hb, Outcome.world?] at h
    | ok w2 b =>
      simp only [hb, Outcome.world?, Option.some.injEq] at h
      subst h
      rcases bread_ok hb with ⟨_, _, rfl⟩ | ⟨hl, hs, _, rfl⟩
      · refine Or.inr ⟨upd b _ (hit_buf w pid b) ?_ ?_ ?_, ?_⟩
        · rw [filled_dev]
        · rw [filled_blockno]
        · intro _; exact filled_valid _ _
        · intro k x; rw [hit_head]
      · exact Or.inl ⟨pid, dev, blockno, b, rfl, hl, miss_buf w pid dev blockno b,
          miss_head w pid dev blockno b, bget_scan_last hs⟩
  | bwrite pid b =>
    simp only [exec, bwrite] at h
    split at h
    · simp only [Outcome.world?, Option.some.injEq] at h
      subst h
      exact Or.inr ⟨fun x => ⟨rfl, rfl, by simp [virtio_disk_rw]⟩, fun k x => by
        simp [virtio_disk_rw]⟩
    · simp [Outcome.world?] at h
  | brelse pid b =>
    simp only [exec, brelse] at h
    split at h
    case isFalse => simp [Outcome.world?] at h
    case isTrue hh =>
    simp only [Outcome.world?, Option.some.injEq] at h
    subst h
    have hl : (w.buf b).lock = some pid := hh
    have hv : (w.buf b).valid ≠ 0 := I.valid_of_lock (Or.inl (by simp [hl]))
    have hmem := I.home b hv
    refine Or.inr ⟨upd b _ (brelse_drop_buf w b) rfl rfl id, ?_⟩
    intro k x
    rw [brelse_drop_head]
    split
    · rw [link_front_apply]
      split
      · next hk =>
        subst hk
        by_cases hxb : x = b
        · subst hxb; simp [hmem]
        · simp [hxb, List.mem_erase_of_ne hxb]
      · next hk =>
        rw [List.erase_of_not_mem (fun hm => hk (I.disj _ _ _ hm hmem))]
    · rfl
  | bpin b =>
    simp only [exec, Option.some.injEq] at h
    subst h
    exact Or.inr ⟨upd b _ rfl rfl rfl id, fun k x => Iff.rfl⟩
  | bunpin b =>
    simp only [exec, Option.some.injEq] at h
    subst h
    exact Or.inr ⟨upd b _ rfl rfl rfl id, fun k x => Iff.rfl⟩
  | store pid b d =>
    simp only [exec, Option.some.injEq] at h
    subst h
    exact Or.inr ⟨upd b _ rfl rfl rfl id, fun k x => Iff.rfl⟩

/-- As long as no `bread` asks for `(dev, blockno)`: either the slot `b` still holds
the block, or no slot of the bucket of the block holds it. -/
theorem step_track {w w1 : World} {op : Op} {dev blockno b : Nat} (I : w.Inv)
    (P : (holds w.buf dev blockno b ∧ (w.buf b).valid ≠ 0) ∨
      ∀ x ∈ w.head (blockno % NBUCKET), ¬ holds w.buf dev blockno x)
    (h : step w op = some w1) (hne : ∀ q, op ≠ .bread q dev blockno) :
    (holds w1.buf dev blockno b ∧ (w1.buf b).valid ≠ 0) ∨
      ∀ x ∈ w1.head (blockno % NBUCKET), ¬ holds w1.buf dev blockno x := by
  unfold World.Inv at I
  rcases step_shape I h with ⟨q, d, n, c, rfl, hl, hbuf, hhead, k, as, bs, hk, hc0, hbs⟩ | ⟨h1, h2⟩
  · have hdn : ¬ (d = dev ∧ n = blockno) := fun e => hne q (by rw [e.1, e.2])
    have hmemc : c ∈ w.head k := by rw [hk]; simp
    have other : ∀ x, x ≠ c → (holds w1.buf dev blockno x ↔ holds w.buf dev blockno x) := by
      intro x hx; unfold holds; rw [hbuf, setAt_ne _ _ hx]
    have hcnew : ¬ holds w1.buf dev blockno c := by
      unfold holds; rw [hbuf, setAt_same]; exact hdn
    have hmem : ∀ x, x ∈ w1.head (blockno % NBUCKET) → x ≠ c →
        x ∈ w.head (blockno % NBUCKET) := by
      intro x hx hxc
      rw [hhead, link_front_apply] at hx
      split at hx
      · next e =>
        rcases List.mem_cons.mp hx with e1 | e1
        · exact absurd e1 hxc
        · exact e ▸ (List.erase_sublist c _).subset e1
      · exact (List.erase_sublist c _).subset hx
    have second : (∀ x ∈ w.head (blockno % NBUCKET), x ≠ c → ¬ holds w.buf dev blockno x) →
        ∀ x ∈ w1.head (blockno % NBUCKET), ¬ holds w1.buf dev blockno x := by
      intro hall x hx
      by_cases hxc : x = c
      · rw [hxc]; exact hcnew
      · rw [other x hxc]; exact hall x (hmem x hx hxc) hxc
    rcases P with ⟨hb, hv⟩ | P
    · by_cases hcb : b = c
      · subst hcb
        right
        apply second
        intro x hx hxb hx1
        have hhome : k = blockno % NBUCKET := by
          have := I.home b hv
          rw [hb.2] at this
          exact I.disj _ _ _ hmemc this
        subst hhome
        have hpr : (w.buf x).valid = 0 := by
          have := I.others_pristine hv x (by rw [hb.2]; exact hx) hxb
            (by rw [hx1.1, hb.1]) (by rw [hx1.2, hb.2])
          exact this
        have hx0 : (w.buf x).refcnt = 0 := by rw [I.pristine x hpr]; rfl
        rcases mem_split_of_ne hk hx hxb with hin | hin
        · have hkk := I.keys (blockno % NBUCKET)
          rw [hk, List.pairwise_append] at hkk
          have := hkk.2.2 x hin b (List.mem_cons_self _ _)
            (by rw [hx1.1, hb.1]) (by rw [hx1.2, hb.2])
          exact hv this
        · exact hbs x hin hx0
      · left
        rw [other b hcb, hbuf, setAt_ne _ _ hcb]
        exact ⟨hb, hv⟩
    · right
      exact second (fun x hx _ => P x hx)
  · have same : ∀ x, holds w1.buf dev blockno x ↔ holds w.buf dev blockno x := by
      intro x; unfold holds; rw [(h1 x).1, (h1 x).2.1]
    rcases P with ⟨hb, hv⟩ | P
    · left; exact ⟨(same b).mpr hb, (h1 b).2.2 hv⟩
    · right
      intro x hx
      rw [same x]
      exact P x ((h2 _ x).mp hx)

theorem run_track {w w1 : World} {ops : List Op} {dev blockno b : Nat} (hw : Reachable w)
    (P : (holds w.buf dev blockno b ∧ (w.buf b).valid ≠ 0) ∨
      ∀ x ∈ w.head (blockno % NBUCKET), ¬ holds w.buf dev blockno x)
    (h : run w ops = some w1) (hne : ∀ q, Op.bread q dev blockno ∉ ops) :
    (holds w1.buf dev blockno b ∧ (w1.buf b).valid ≠ 0) ∨
      ∀ x ∈ w1.head (blockno % NBUCKET), ¬ holds w1.buf dev blockno x := by
  induction ops generalizing w with
  | nil => simp [run] at h; subst h; exact P
  | cons op ops ih =>
    simp only [run] at h
    cases hs : step w op with
    | none => simp [hs] at h
    | some w2 =>
      simp only [hs, Option.bind] at h
      refine ih (Reachable.step op hw hs) ?_ h (fun q hq => hne q (List.mem_cons_of_mem _ hq))
      exact step_track hw.inv P hs (fun q e => hne q (e ▸ List.mem_cons_self _ _))


/-- A call only adds to the record of the driver calls, and changes a block of the disk
only by a recorded write of that block. -/
theorem step_log {w w1 : World} {op : Op} (h : step w op = some w1) :
    ∃ evs, w1.log = w.log ++ evs ∧
      ∀ d n, (∀ x, DiskEv.wr d n x ∉ evs) → w1.disk d n = w.disk d n := by
  unfold step at h
  split at h
  case isFalse => exact absurd h (by simp)
  case isTrue hp =>
  cases op with
  | bread pid dev blockno =>
    simp only [exec] at h
    cases hb : bread w pid dev blockno with
    | panic w2 m => simp [hb, Outcome.world?] at h
    | sleeps w2 m => simp [hb, Outcome.world?] at h
    | ok w2 b =>
      simp only [hb, Outcome.world?, Option.some.injEq] at h
      subst h
      rcases bread_ok hb with ⟨_, _, rfl⟩ | ⟨_, _, _, rfl⟩
      all_goals
        rw [bread_fill_log, bread_fill_disk]
        split
        · exact ⟨_, rfl, fun _ _ _ => rfl⟩
        · exact ⟨[], by simp [lock_by, bget_hit, bget_take], fun _ _ _ => rfl⟩
  | bwrite pid b =>
    simp only [exec, bwrite] at h
    split at h
    · simp only [Outcome.world?, Option.some.injEq] at h
      subst h
      refine ⟨[DiskEv.wr (w.buf b).dev (w.buf b).blockno (w.buf b).data], by
        simp [virtio_disk_rw], ?_⟩
      intro d n hn
      have := hn (w.buf b).data
      simp only [virtio_disk_rw, if_true]
      split
      · next e => simp [e.1, e.2] at this
      · rfl
    · simp [Outcome.world?] at h
  | brelse pid b =>
    simp only [exec, brelse] at h
    split at h
    case isFalse => simp [Outcome.world?] at h
    case isTrue hh =>
    simp only [Outcome.world?, Option.some.injEq] at h
    subst h
    exact ⟨[], by rw [brelse_drop_log]; simp, fun _ _ _ => by rw [brelse_drop_disk]⟩
  | bpin b =>
    simp only [exec, Option.some.injEq] at h
    subst h
    exact ⟨[], by simp [bpin], fun _ _ _ => rfl⟩
  | bunpin b =>
    simp only [exec, Option.some.injEq] at h
    subst h
    exact ⟨[], by simp [bunpin], fun _ _ _ => rfl⟩
  | store pid b d =>
    simp only [exec, Option.some.injEq] at h
    subst h
    exact ⟨[], by simp [store], fun _ _ _ => rfl⟩

theorem run_log {w w1 : World} {ops : List Op} (h : run w ops = some w1) :
    ∃ evs, w1.log = w.log ++ evs ∧
      ∀ d n, (∀ x, DiskEv.wr d n x ∉ evs) → w1.disk d n = w.disk d n := by
  induction ops generalizing w with
  | nil => simp [run] at h; subst h; exact ⟨[], by simp, fun _ _ _ => rfl⟩
  | cons op ops ih =>
    simp only [run] at h
    cases hs : step w op with
    | none => simp [hs] at h
    | some w2 =>
      simp only [hs, Option.bind] at h
      obtain ⟨e1, h1, h2⟩ := step_log hs
      obtain ⟨e2, h3, h4⟩ := ih h
      refine ⟨e1 ++ e2, by rw [h3, h1, List.append_assoc], ?_⟩
      intro d n hn
      rw [h4 d n (fun x hx => hn x (List.mem_append_right _ hx)),
        h2 d n (fun x hx => hn x (List.mem_append_left _ hx))]

/-- A miss of `bread` whose scan finds a slot with a free content lock returns that
slot, holding the block as read from the disk. -/
theorem bread_miss {w : World} (pid : Nat) {dev blockno v : Nat}
    (hl : bget_lookup w dev blockno = none) (hs : bget_scan w blockno = some v)
    (hf : (w.buf v).lock = none) :
    ∃ w1, bread w pid dev blockno = .ok w1 v ∧
      w1.buf = setAt w.buf v ⟨1, dev, blockno, some pid, 1, w.disk dev blockno⟩ ∧
      w1.head = link_front (unlink w.head v) (blockno % NBUCKET) v ∧
      w1.log = w.log ++ [DiskEv.rd dev blockno] ∧ w1.disk = w.disk ∧ w1.nbuf = w.nbuf := by
  refine ⟨bread_fill (lock_by (bget_take w dev blockno v) pid v) v, ?_, miss_buf _ _ _ _ _,
    miss_head _ _ _ _ _, ?_, ?_, ?_⟩
  · simp [bread, bget, hl, bget_recycle, hs, acquiresleep, bget_take, hf]
  · rw [bread_fill_log]; simp [lock_by, bget_take]
  · rw [bread_fill_disk]; rfl
  · rw [bread_fill_nbuf]; rfl

/-- C5, amended. In a state reached from `binit` by calls executed one after the other,
each meeting the preconditions of the interface, let a process hold the slot `b` for the
block `(dev, blockno)`, with the content `D` in `b->data`. After `bwrite(b)`,
`brelse(b)` and any following such calls, none of them a `bread` of `(dev, blockno)`,
none issuing a write of `(dev, blockno)`, after which the slot `b` holds another block,
the next `bread(dev, blockno)` misses: no slot of the bucket holds the block. When the
scan of `bget` finds a slot and the content lock of that slot is free, the call returns
that slot; and whenever the call returns, the slot it returns holds `(dev, blockno)` with
`valid` set and `data` equal to `D`, read from the disk by one call of the driver. -/
theorem read_after_write (w : World) (hw : Reachable w) (pid b dev blockno : Nat)
    (hk : holds w.buf dev blockno b)
    (w1 : World) (h1 : run w [.bwrite pid b, .brelse pid b] = some w1)
    (ops : List Op) (w2 : World) (h2 : run w1 ops = some w2)
    (hnr : ∀ q, Op.bread q dev blockno ∉ ops)
    (hnw : ∀ d, DiskEv.wr dev blockno d ∉ w2.log.drop w1.log.length)
    (hrec : ¬ holds w2.buf dev blockno b) :
    bget_lookup w2 dev blockno = none ∧
    (∀ q v, bget_scan w2 blockno = some v → (w2.buf v).lock = none →
      ∃ w3, bread w2 q dev blockno = .ok w3 v ∧
        (w3.buf v).data = (w.buf b).data ∧ (w3.buf v).valid = 1 ∧
        holds w3.buf dev blockno v ∧ w3.log = w2.log ++ [DiskEv.rd dev blockno]) ∧
    (∀ q w3 r, bread w2 q dev blockno = .ok w3 r →
      (w3.buf r).data = (w.buf b).data ∧ (w3.buf r).valid = 1 ∧
        holds w3.buf dev blockno r ∧ w3.log = w2.log ++ [DiskEv.rd dev blockno]) := by
  -- the state after `bwrite` and `brelse`
  have hr1 : Reachable w1 := hw.run h1
  have hstate : holdingsleep w pid b ∧ w1.disk dev blockno = (w.buf b).data ∧
      holds w1.buf dev blockno b ∧ ((w.buf b).valid ≠ 0 → (w1.buf b).valid ≠ 0) := by
    simp only [run, Option.bind] at h1
    cases hs1 : step w (.bwrite pid b) with
    | none => simp [hs1] at h1
    | some wa =>
      simp only [hs1] at h1
      cases hs2 : step wa (.brelse pid b) with
      | none => simp [hs2] at h1
      | some wb =>
        simp only [hs2, Option.some.injEq] at h1
        subst h1
        unfold step at hs1 hs2
        split at hs1
        case isFalse => exact absurd hs1 (by simp)
        case isTrue hp1 =>
        split at hs2
        case isFalse => exact absurd hs2 (by simp)
        case isTrue hp2 =>
        have hh1 : holdingsleep w pid b := hp1.2
        have hh2 : holdingsleep wa pid b := hp2.2
        simp only [exec, bwrite, hh1, if_true, Outcome.world?, Option.some.injEq] at hs1
        simp only [exec, brelse, hh2, if_true, Outcome.world?, Option.some.injEq] at hs2
        subst hs1
        subst hs2
        refine ⟨hh1, ?_, ?_, ?_⟩
        · rw [brelse_drop_disk]
          simp [virtio_disk_rw, hk.1, hk.2]
        · unfold holds
          rw [brelse_drop_buf]
          simpa [virtio_disk_rw] using hk
        · intro hv
          rw [brelse_drop_buf]
          simpa [virtio_disk_rw] using hv
  obtain ⟨hh, hdisk, hk1, hv1⟩ := hstate
  have hl : (w.buf b).lock = some pid := hh
  have hv : (w.buf b).valid ≠ 0 := hw.inv.valid_of_lock (Or.inl (by simp [hl]))
  -- the block on the disk is `D` until the next `bread`
  have hdisk2 : w2.disk dev blockno = (w.buf b).data := by
    obtain ⟨evs, e1, e2⟩ := run_log h2
    rw [e1, List.drop_left] at hnw
    rw [e2 dev blockno hnw, hdisk]
  -- no slot of the bucket holds the block
  have hnone : ∀ x ∈ w2.head (blockno % NBUCKET), ¬ holds w2.buf dev blockno x := by
    rcases run_track hr1 (Or.inl ⟨hk1, hv1 hv⟩) h2 hnr with ⟨hb, _⟩ | h
    · exact absurd hb hrec
    · exact h
  have hmiss : bget_lookup w2 dev blockno = none := by
    unfold bget_lookup
    rw [List.find?_eq_none]
    intro x hx
    simpa [holds] using hnone x hx
  have hret : ∀ q v, bget_scan w2 blockno = some v → (w2.buf v).lock = none →
      ∃ w3, bread w2 q dev blockno = .ok w3 v ∧
        (w3.buf v).data = (w.buf b).data ∧ (w3.buf v).valid = 1 ∧
        holds w3.buf dev blockno v ∧ w3.log = w2.log ++ [DiskEv.rd dev blockno] := by
    intro q v hs hf
    obtain ⟨w3, e1, e2, _, e4, _, _⟩ := bread_miss q hmiss hs hf
    refine ⟨w3, e1, ?_, ?_, ?_, e4⟩
    · rw [e2]; simpa using hdisk2
    · rw [e2]; simp
    · unfold holds; rw [e2]; simp
  refine ⟨hmiss, hret, ?_⟩
  intro q w3 r hb
  rcases bread_ok hb with ⟨hl1, _, _⟩ | ⟨_, hs, hf, _⟩
  · rw [hmiss] at hl1; exact absurd hl1 (by simp)
  · obtain ⟨w4, e1, e2⟩ := hret q r hs hf
    rw [hb] at e1
    injection e1 with e1 _
    subst e1
    exact e2


/-! ## Sequences of steps of the processes -/

theorem sys_run_append (s : Sys) (evs1 evs2 : List Ev) :
    sys_run s (evs1 ++ evs2) = (sys_run s evs1).bind (fun s1 => sys_run s1 evs2) := by
  induction evs1 generalizing s with
  | nil => simp [sys_run]
  | cons ev evs ih =>
    simp only [List.cons_append, sys_run]
    cases sys_step s ev with
    | none => simp
    | some s1 => simp [ih]

theorem sys_runS_append (s : Sys) (evs1 evs2 : List Ev) :
    sys_runS s (evs1 ++ evs2) = (sys_runS s evs1).bind (fun s1 => sys_runS s1 evs2) := by
  induction evs1 generalizing s with
  | nil => simp [sys_runS]
  | cons ev evs ih =>
    simp only [List.cons_append, sys_runS]
    cases sys_stepS s ev with
    | none => simp
    | some s1 => simp [ih]

theorem sys_run_of_runS {s s1 : Sys} {evs : List Ev} (h : sys_runS s evs = some s1) :
    sys_run s evs = some s1 := by
  induction evs generalizing s with
  | nil => simpa [sys_runS, sys_run] using h
  | cons ev evs ih =>
    simp only [sys_runS] at h
    cases hs : sys_stepS s ev with
    | none => simp [hs] at h
    | some s2 =>
      simp only [hs, Option.bind] at h
      have h2 : sys_step s ev = some s2 := by
        unfold sys_stepS at hs
        split at hs
        · exact hs
        · exact absurd hs (by simp)
      simp only [sys_run, h2, Option.bind]
      exact ih h

theorem sys_run_reach {s s1 : Sys} {evs : List Ev} (hs : SysReach s)
    (h : sys_run s evs = some s1) : SysReach s1 := by
  induction evs generalizing s with
  | nil => simp [sys_run] at h; exact h ▸ hs
  | cons ev evs ih =>
    simp only [sys_run] at h
    cases h1 : sys_step s ev with
    | none => simp [h1] at h
    | some s2 =>
      simp only [h1, Option.bind] at h
      exact ih (SysReach.step ev hs h1) h

theorem sys_run_after (evs : List Ev) (nbuf : Nat) (disk : Nat → Nat → Data)
    (h : (sys_run ⟨binit nbuf disk, [], []⟩ evs).isSome = true) :
    sys_run ⟨binit nbuf disk, [], []⟩ evs = some (sys_after evs nbuf disk) := by
  unfold sys_after
  obtain ⟨s, hs⟩ := Option.isSome_iff_exists.mp h
  rw [hs]; rfl

/-- The state after steps that are all possible is reached from `binit`. -/
theorem sys_after_reach (evs : List Ev) (nbuf : Nat) (disk : Nat → Nat → Data)
    (h : (sys_run ⟨binit nbuf disk, [], []⟩ evs).isSome = true) :
    SysReach (sys_after evs nbuf disk) :=
  sys_run_reach (SysReach.init nbuf disk) (sys_run_after evs nbuf disk h)

theorem sys_runS_after (evs : List Ev) (nbuf : Nat) (disk : Nat → Nat → Data)
    (h : (sys_runS ⟨binit nbuf disk, [], []⟩ evs).isSome = true) :
    sys_runS ⟨binit nbuf disk, [], []⟩ evs = some (sys_after evs nbuf disk) := by
  obtain ⟨s, hs⟩ := Option.isSome_iff_exists.mp h
  have := sys_run_of_runS hs
  unfold sys_after
  rw [this, hs]; rfl

theorem sys_stepS_after (evs : List Ev) (ev : Ev) (evs1 : List Ev) (nbuf : Nat)
    (disk : Nat → Nat → Data) (e : evs ++ [ev] = evs1)
    (h : (sys_runS ⟨binit nbuf disk, [], []⟩ evs1).isSome = true) :
    sys_stepS (sys_after evs nbuf disk) ev = some (sys_after evs1 nbuf disk) := by
  subst e
  have h2 := sys_runS_after _ nbuf disk h
  rw [sys_runS_append] at h h2
  cases h1 : sys_runS ⟨binit nbuf disk, [], []⟩ evs with
  | none => simp [h1] at h
  | some s =>
    have e1 : sys_after evs nbuf disk = s := by
      unfold sys_after; rw [sys_run_of_runS h1]; rfl
    simp only [h1, Option.bind, sys_runS] at h2
    rw [e1]
    cases hs : sys_stepS s ev with
    | none => simp [hs] at h2
    | some s2 => simpa [hs] using h2


/-! ## The theorems at concrete states -/

theorem run_after_append (ops1 ops2 ops : List Op) (nbuf : Nat) (disk : Nat → Nat → Data)
    (e : ops1 ++ ops2 = ops) (h : (run (binit nbuf disk) ops).isSome = true) :
    run (after ops1 nbuf disk) ops2 = some (after ops nbuf disk) := by
  subst e
  have h2 := run_after h
  rw [run_append] at h h2
  cases h1 : run (binit nbuf disk) ops1 with
  | none => simp [h1] at h
  | some w =>
    simp only [h1, Option.bind] at h2
    simpa [after, h1] using h2

theorem step_after (ops : List Op) (op : Op) (ops1 : List Op) (nbuf : Nat)
    (disk : Nat → Nat → Data) (e : ops ++ [op] = ops1)
    (h : (run (binit nbuf disk) ops1).isSome = true) :
    step (after ops nbuf disk) op = some (after ops1 nbuf disk) := by
  have := run_after_append ops [op] ops1 nbuf disk e h
  simp only [run] at this
  cases hs : step (after ops nbuf disk) op with
  | none => simp [hs] at this
  | some w => simpa [hs] using this

theorem brelse_of_step {w w1 : World} {pid b : Nat} (h : step w (.brelse pid b) = some w1) :
    brelse w pid b = .ok w1 () := by
  unfold step at h
  split at h
  case isFalse => exact absurd h (by simp)
  case isTrue hp =>
  have hh : holdingsleep w pid b := hp.2
  simp only [exec, brelse, hh, if_true, Outcome.world?, Option.some.injEq] at h
  simp [brelse, hh, h]

/-- C5, at the round trip of the content 42 through block 5 of device 1, whose slot is
recycled for block 34 in between. -/
theorem read_after_write_witness :
    holds (after [.bread 1 1 5, .store 1 5 42] 30 disk0).buf 1 5 5 ∧
    ((after [.bread 1 1 5, .store 1 5 42] 30 disk0).buf 5).data = 42 ∧
    ¬ holds (after [.bread 1 1 5, .store 1 5 42, .bwrite 1 5, .brelse 1 5, .bread 2 1 34]
      30 disk0).buf 1 5 5 ∧
    bget_lookup (after [.bread 1 1 5, .store 1 5 42, .bwrite 1 5, .brelse 1 5, .bread 2 1 34]
      30 disk0) 1 5 = none ∧
    ∃ w3, bread (after [.bread 1 1 5, .store 1 5 42, .bwrite 1 5, .brelse 1 5, .bread 2 1 34]
        30 disk0) 3 1 5 = .ok w3 6 ∧ (w3.buf 6).data = 42 := by
  have h := read_after_write (after [.bread 1 1 5, .store 1 5 42] 30 disk0)
    (after_reachable _ 30 disk0) 1 5 1 5 (by decide)
    (after [.bread 1 1 5, .store 1 5 42, .bwrite 1 5, .brelse 1 5] 30 disk0)
    (run_after_append [.bread 1 1 5, .store 1 5 42] [.bwrite 1 5, .brelse 1 5]
      [.bread 1 1 5, .store 1 5 42, .bwrite 1 5, .brelse 1 5] 30 disk0 rfl (by decide))
    [.bread 2 1 34]
    (after [.bread 1 1 5, .store 1 5 42, .bwrite 1 5, .brelse 1 5, .bread 2 1 34] 30 disk0)
    (run_after_append [.bread 1 1 5, .store 1 5 42, .bwrite 1 5, .brelse 1 5] [.bread 2 1 34]
      [.bread 1 1 5, .store 1 5 42, .bwrite 1 5, .brelse 1 5, .bread 2 1 34] 30 disk0 rfl
      (by decide))
    (by intro q; simp)
    (by
      have e : (after [.bread 1 1 5, .store 1 5 42, .bwrite 1 5, .brelse 1 5, .bread 2 1 34]
          30 disk0).log.drop
          (after [.bread 1 1 5, .store 1 5 42, .bwrite 1 5, .brelse 1 5] 30 disk0).log.length
          = [DiskEv.rd 1 34] := by decide
      intro d; rw [e]; simp)
    (by decide)
  refine ⟨by decide, by decide, by decide, h.1, ?_⟩
  obtain ⟨w3, e1, e2, _⟩ := h.2.1 3 6 (by decide) (by decide)
  exact ⟨w3, e1, e2⟩


/-- C7, at a second `brelse` of slot 0 by process 1 after it has read and still
holds another block. -/
theorem lock_discipline_witness :
    ¬ holdingsleep (binit 30 disk0) 1 0 ∧
    bwrite (binit 30 disk0) 1 0 = .panic (binit 30 disk0) .bwrite ∧
    noReacquire 1 0 (after [.bread 1 1 0, .brelse 1 0] 30 disk0) [.bread 1 1 1] = true ∧
    brelse (after [.bread 1 1 0, .brelse 1 0, .bread 1 1 1] 30 disk0) 1 0 =
      .panic (after [.bread 1 1 0, .brelse 1 0, .bread 1 1 1] 30 disk0) .brelse :=
  ⟨by decide, ((lock_discipline (binit 30 disk0) 1 0).2.2.1 (by decide)).1, by decide,
    (lock_discipline (after [.bread 1 1 0] 30 disk0) 1 0).2.2.2
      (after [.bread 1 1 0, .brelse 1 0] 30 disk0)
      (after [.bread 1 1 0, .brelse 1 0, .bread 1 1 1] 30 disk0) [.bread 1 1 1]
      (brelse_of_step (step_after [.bread 1 1 0] (.brelse 1 0) [.bread 1 1 0, .brelse 1 0]
        30 disk0 rfl (by decide)))
      (run_after_append [.bread 1 1 0, .brelse 1 0] [.bread 1 1 1]
        [.bread 1 1 0, .brelse 1 0, .bread 1 1 1] 30 disk0 rfl (by decide))
      (by decide)⟩

/-- C9, at the second read of block 0 of device 1, cached in slot 0 and released. -/
theorem bread_hit_post_witness :
    0 ∈ (after [.bread 1 1 0, .brelse 1 0] 30 disk0).head (0 % NBUCKET) ∧
    holds (after [.bread 1 1 0, .brelse 1 0] 30 disk0).buf 1 0 0 ∧
    ∃ b w1, bread (after [.bread 1 1 0, .brelse 1 0] 30 disk0) 2 1 0 = .ok w1 b ∧
      holds (after [.bread 1 1 0, .brelse 1 0] 30 disk0).buf 1 0 b ∧
      (w1.buf b).lock = some 2 ∧
      w1.log = (after [.bread 1 1 0, .brelse 1 0] 30 disk0).log := by
  obtain ⟨b, as, bs, hl, hb, hn, h1, _⟩ :=
    bread_hit_post (after [.bread 1 1 0, .brelse 1 0] 30 disk0) 2 1 0 0 (by decide) (by decide)
  have hb1 : b ∈ (after [.bread 1 1 0, .brelse 1 0] 30 disk0).head (0 % NBUCKET) := by
    rw [hl]; simp
  have e : (after [.bread 1 1 0, .brelse 1 0] 30 disk0).head (0 % NBUCKET) = [0, 29] := by
    decide
  rw [e] at hb1
  simp only [List.mem_cons, List.mem_singleton, List.not_mem_nil, or_false] at hb1
  rcases hb1 with hb1 | hb1
  · subst hb1
    obtain ⟨w1, e1, _, _, _, e4, _, _, _, _, _, _, _, e12⟩ := h1 (by decide)
    exact ⟨by decide, by decide, 0, w1, e1, hb, e4, (e12 (by decide)).1⟩
  · subst hb1
    exact absurd hb (by decide)


/-! ## Evaluations of the code at concrete states -/

set_option maxRecDepth 100000 in
/-- C2 fails on the code. Two calls `bget(1, 5)` both miss in the lookup, then both
recycle: the first takes slot 5, the second, which does not look again, takes slot 6.
At the end, with no lock held, two distinct slots with `refcnt == 1` hold block
`(1, 5)`. -/
theorem bget_race_duplicates :
    (interleave (binit 30 disk0) ⟨1, 5, .lookup⟩ ⟨1, 5, .lookup⟩
      [true, false, true, false]).2.1.pc = .done 5 ∧
    (interleave (binit 30 disk0) ⟨1, 5, .lookup⟩ ⟨1, 5, .lookup⟩
      [true, false, true, false]).2.2.pc = .done 6 ∧
    ((interleave (binit 30 disk0) ⟨1, 5, .lookup⟩ ⟨1, 5, .lookup⟩
      [true, false, true, false]).1.buf 5) = ⟨0, 1, 5, none, 1, 0⟩ ∧
    ((interleave (binit 30 disk0) ⟨1, 5, .lookup⟩ ⟨1, 5, .lookup⟩
      [true, false, true, false]).1.buf 6) = ⟨0, 1, 5, none, 1, 0⟩ ∧
    (interleave (binit 30 disk0) ⟨1, 5, .lookup⟩ ⟨1, 5, .lookup⟩
      [true, false, true, false]).1.head 5 = [6, 5] := by
  decide

set_option maxRecDepth 100000 in
/-- C3 as stated fails. After the blocks `0 .. 29` of device 1 were read and released in
turn, `bread` of block 30 returns slot 1, which held block 1; the slot that held block 0,
slot 0, is not touched. -/
theorem scenario_recycles_block_1 :
    (scenario 1 1 (binit 30 disk0) (List.range 30)).map
        (fun w => ((bread w 1 1 30).ret?, (w.buf 1).dev, (w.buf 1).blockno,
          (w.buf 0).dev, (w.buf 0).blockno)) = some (some 1, 1, 1, 1, 0) ∧
    ((scenario 1 1 (binit 30 disk0) (List.range 30)).bind
        (fun w => (bread w 1 1 30).world?)).map
        (fun w => ((w.buf 0).dev, (w.buf 0).blockno, (w.buf 0).refcnt)) = some (1, 0, 0) := by
  decide

set_option maxRecDepth 100000 in
/-- C6 fails on the code. With the slots `0 .. 27` and `29` of a pool of 30 referenced
and slot 28 free, `bread` of block `2^32 - 1` misses and `bget` calls `panic`: in
`uint` arithmetic `(blockno+i)%NBUCKET` visits bucket 15, then the buckets `0 .. 27`,
and never bucket 28. -/
theorem bget_panics_with_free_slot :
    (run (binit 30 disk0) fill_but_28).isSome = true ∧
    (after fill_but_28 30 disk0).nbuf = 30 ∧
    ((after fill_but_28 30 disk0).buf 28).refcnt = 0 ∧
    28 ∈ (after fill_but_28 30 disk0).head 28 ∧
    bget_lookup (after fill_but_28 30 disk0) 1 4294967295 = none ∧
    (bget (after fill_but_28 30 disk0) 2 1 4294967295).panic? = some .bget_no_buffers ∧
    (bread (after fill_but_28 30 disk0) 2 1 4294967295).panic? = some .bget_no_buffers ∧
    (List.range NBUCKET).map (bget_off 4294967295) =
      [15, 0, 1, 2, 3, 4, 5, 6, 7, 8, 9, 10, 11, 12, 13, 14, 15, 16, 17, 18, 19, 20, 21, 22,
        23, 24, 25, 26, 27] := by
  decide

set_option maxRecDepth 100000 in
/-- C5 as stated fails. Process 1 reads block `(1, 5)` into slot 5, stores 42 in it,
calls `bwrite` and `brelse`; process 2 then reads and keeps the blocks `34 .. 63`, the
first of which recycles slot 5; the only write in the record of the driver is the one
of 42 to `(1, 5)`. The next `bread(1, 5)` misses and does not return a slot: every slot
of the pool has `refcnt == 1`, the scan finds none and `bget` calls `panic`. -/
theorem read_after_write_panics :
    (run (binit 30 disk0) round_trip_then_fill).isSome = true ∧
    holds (after [.bread 1 1 5, .store 1 5 42] 30 disk0).buf 1 5 5 ∧
    ((after [.bread 1 1 5, .store 1 5 42] 30 disk0).buf 5).lock = some 1 ∧
    ((after [.bread 1 1 5, .store 1 5 42] 30 disk0).buf 5).data = 42 ∧
    ((after round_trip_then_fill 30 disk0).buf 5).blockno = 34 ∧
    (after round_trip_then_fill 30 disk0).log =
      [DiskEv.rd 1 5, DiskEv.wr 1 5 42] ++ (List.range 30).map (fun k => DiskEv.rd 1 (34 + k)) ∧
    (after round_trip_then_fill 30 disk0).disk 1 5 = 42 ∧
    (List.range 30).all (fun i => ((after round_trip_then_fill 30 disk0).buf i).refcnt == 1) ∧
    bget_lookup (after round_trip_then_fill 30 disk0) 1 5 = none ∧
    bget_scan (after round_trip_then_fill 30 disk0) 5 = none ∧
    (bread (after round_trip_then_fill 30 disk0) 3 1 5).ret? = none ∧
    (bread (after round_trip_then_fill 30 disk0) 3 1 5).panic? = some .bget_no_buffers := by
  decide

set_option maxRecDepth 100000 in
/-- C9 as stated fails. While process 1 holds block `(1, 0)` in slot 0, a `bread(1, 0)`
by process 2, or by process 1 itself, hits and does not return: after the `refcnt++` the
caller sleeps on the content lock. And after `bread(1, 0)`, `bunpin`, `brelse` by
process 1 the slot holds the block with `refcnt == 2^32 - 1` and a free content lock:
`bread(1, 0)` hits and returns the slot with `refcnt == 0`, not one more. -/
theorem bread_hit_sleeps_or_wraps :
    (run (binit 30 disk0) [.bread 1 1 0]).isSome = true ∧
    0 ∈ (after [.bread 1 1 0] 30 disk0).head (0 % NBUCKET) ∧
    holds (after [.bread 1 1 0] 30 disk0).buf 1 0 0 ∧
    (bread (after [.bread 1 1 0] 30 disk0) 2 1 0).ret? = none ∧
    (bread (after [.bread 1 1 0] 30 disk0) 2 1 0).sleeps? = some 0 ∧
    (bread (after [.bread 1 1 0] 30 disk0) 1 1 0).ret? = none ∧
    (bread (after [.bread 1 1 0] 30 disk0) 1 1 0).sleeps? = some 0 ∧
    (run (binit 30 disk0) [.bread 1 1 0, .bunpin 0, .brelse 1 0]).isSome = true ∧
    0 ∈ (after [.bread 1 1 0, .bunpin 0, .brelse 1 0] 30 disk0).head (0 % NBUCKET) ∧
    holds (after [.bread 1 1 0, .bunpin 0, .brelse 1 0] 30 disk0).buf 1 0 0 ∧
    ((after [.bread 1 1 0, .bunpin 0, .brelse 1 0] 30 disk0).buf 0).lock = none ∧
    ((after [.bread 1 1 0, .bunpin 0, .brelse 1 0] 30 disk0).buf 0).refcnt = 4294967295 ∧
    (bread (after [.bread 1 1 0, .bunpin 0, .brelse 1 0] 30 disk0) 2 1 0).ret? = some 0 ∧
    (bread (after [.bread 1 1 0, .bunpin 0, .brelse 1 0] 30 disk0) 2 1 0).world?.map
      (fun w => ((w.buf 0).lock, (w.buf 0).refcnt)) = some (some 2, 0) := by
  decide

set_option maxRecDepth 100000 in
/-- C10 fails on the code. With block `(1, 15)` held in slot 15 of a pool of 30, a miss
on block `2^32 - 1`, of target bucket 15, recycles slot 0 of bucket 0, where the rule of
the specification selects slot 16 of bucket 16: `(blockno+i)%NBUCKET` wraps around in
`uint` arithmetic. -/
theorem bget_scan_wraps :
    4294967295 % NBUCKET = 15 ∧
    bget_lookup (after [.bread 1 1 15] 30 disk0) 1 4294967295 = none ∧
    bget_scan (after [.bread 1 1 15] 30 disk0) 4294967295 = some 0 ∧
    spec_scan (after [.bread 1 1 15] 30 disk0) 4294967295 = some 16 ∧
    (bget (after [.bread 1 1 15] 30 disk0) 2 1 4294967295).ret? = some 0 ∧
    ((after [.bread 1 1 15] 30 disk0).buf 16).refcnt = 0 := by
  decide


/-! ## The scan, when `blockno+i` does not wrap around -/

theorem findSome?_ext {α β : Type} {f g : α → Option β} {l : List α}
    (h : ∀ x ∈ l, f x = g x) : l.findSome? f = l.findSome? g := by
  induction l with
  | nil => rfl
  | cons a l ih =>
    simp only [List.findSome?_cons]
    rw [h a (List.mem_cons_self _ _), ih (fun x hx => h x (List.mem_cons_of_mem _ hx))]

theorem bget_off_eq {blockno i : Nat} (hb : blockno + NBUCKET ≤ UINT) (hi : i < NBUCKET) :
    bget_off blockno i = (blockno % NBUCKET + i) % NBUCKET := by
  unfold bget_off NBUCKET UINT at *
  omega

/-- For a block number below `2^32 - NBUCKET + 1` the scan of `bget` is the eviction
rule of the specification. -/
theorem bget_scan_eq_spec (w : World) (blockno : Nat) (hb : blockno + NBUCKET ≤ UINT) :
    bget_scan w blockno = spec_scan w blockno := by
  unfold bget_scan spec_scan
  apply findSome?_ext
  intro i hi
  rw [bget_off_eq hb (List.mem_range.mp hi)]

/-- For a block number below `2^32 - NBUCKET + 1` the rounds of the scan visit every
bucket. -/
theorem bget_off_surj {blockno k : Nat} (hb : blockno + NBUCKET ≤ UINT) (hk : k < NBUCKET) :
    ∃ i, i < NBUCKET ∧ bget_off blockno i = k := by
  refine ⟨(k + NBUCKET - blockno % NBUCKET) % NBUCKET, Nat.mod_lt _ (by decide), ?_⟩
  rw [bget_off_eq hb (Nat.mod_lt _ (by decide))]
  unfold NBUCKET at *
  omega

/-- In a reachable state and for a block number below `2^32 - NBUCKET + 1`, the scan
finds no slot exactly when every slot of the pool has `refcnt > 0`. -/
theorem bget_scan_none_iff (w : World) (hw : Reachable w) (blockno : Nat)
    (hb : blockno + NBUCKET ≤ UINT) :
    bget_scan w blockno = none ↔ ∀ i, i < w.nbuf → 0 < (w.buf i).refcnt := by
  have I := hw.inv
  unfold bget_scan
  rw [List.findSome?_eq_none_iff]
  constructor
  · intro h i hi
    obtain ⟨k, hk⟩ := I.cover i hi
    obtain ⟨j, hj, e⟩ := bget_off_surj hb (I.mem_lt k i hk).2
    have := h j (List.mem_range.mpr hj)
    rw [List.find?_eq_none] at this
    have := this i (by rw [List.mem_reverse, e]; exact hk)
    simp only [decide_eq_true_eq] at this
    omega
  · intro h j _
    rw [List.find?_eq_none]
    intro x hx
    rw [List.mem_reverse] at hx
    have := h x (I.mem_lt _ x hx).1
    simp only [decide_eq_true_eq]
    omega

/-- In a reachable state and for a block number below `2^32 - NBUCKET + 1`, `bget` calls
`panic` exactly when no slot of the bucket holds the block and every slot of the pool
has `refcnt > 0`, and it does so in the unchanged state. -/
theorem bget_panic_iff (w : World) (hw : Reachable w) (pid dev blockno : Nat)
    (hb : blockno + NBUCKET ≤ UINT) :
    ((∃ w1 m, bget w pid dev blockno = .panic w1 m) ↔
      (bget_lookup w dev blockno = none ∧ ∀ i, i < w.nbuf → 0 < (w.buf i).refcnt)) ∧
    (∀ w1 m, bget w pid dev blockno = .panic w1 m → w1 = w ∧ m = .bget_no_buffers) := by
  rw [← bget_scan_none_iff w hw blockno hb]
  unfold bget bget_recycle acquiresleep
  cases hl : bget_lookup w dev blockno with
  | some b =>
    simp only
    cases (bget_hit w b).buf b |>.lock <;> simp
  | none =>
    simp only
    cases hs : bget_scan w blockno with
    | none => simp
    | some b =>
      simp only
      cases (bget_take w dev blockno b).buf b |>.lock <;> simp


/-! ## The cache does not depend on the names of devices and processes, nor on the data -/

theorem Sim.update {ρ π δ : Nat → Nat} {w w1 : World} (S : Sim ρ π δ w w1) (b : Nat)
    (v v1 : Bio.buf) (hv : v1 = mapBuf ρ π δ v) (hd hd1 : Nat → List Nat) (hh : hd1 = hd) :
    Sim ρ π δ { w with buf := setAt w.buf b v, head := hd }
      { w1 with buf := setAt w1.buf b v1, head := hd1 } := by
  refine ⟨S.nbuf, hh, ?_, S.disk⟩
  intro i
  by_cases hi : i = b
  · subst hi; simp [hv]
  · simp [setAt_ne _ _ hi, S.buf i]

theorem Sim.lookup {ρ π δ : Nat → Nat} {w w1 : World} (S : Sim ρ π δ w w1)
    (hρ : Function.Injective ρ) (dev blockno : Nat) :
    bget_lookup w1 (ρ dev) blockno = bget_lookup w dev blockno := by
  unfold bget_lookup
  rw [S.head]
  congr 1
  funext b
  rw [S.buf b]
  simp [mapBuf, hρ.eq_iff]

theorem Sim.scan {ρ π δ : Nat → Nat} {w w1 : World} (S : Sim ρ π δ w w1) (blockno : Nat) :
    bget_scan w1 blockno = bget_scan w blockno := by
  unfold bget_scan
  rw [S.head]
  congr 1
  funext i
  congr 1
  funext b
  rw [S.buf b]
  simp [mapBuf]

theorem Sim.fill {ρ π δ : Nat → Nat} {w w1 : World} (S : Sim ρ π δ w w1) (b : Nat) :
    Sim ρ π δ (bread_fill w b) (bread_fill w1 b) := by
  refine ⟨?_, ?_, ?_, ?_⟩
  · rw [bread_fill_nbuf, bread_fill_nbuf, S.nbuf]
  · rw [bread_fill_head, bread_fill_head, S.head]
  · intro i
    rw [bread_fill_buf, bread_fill_buf]
    by_cases hi : i = b
    · subst hi
      simp only [setAt_same, S.buf i]
      unfold filled mapBuf
      simp only
      split
      · simp [S.disk]
      · rfl
    · simp [setAt_ne _ _ hi, S.buf i]
  · intro d n
    rw [bread_fill_disk, bread_fill_disk, S.disk]

theorem Sim.bread {ρ π δ : Nat → Nat} {w w1 wa : World} (S : Sim ρ π δ w w1)
    (hρ : Function.Injective ρ) {pid dev blockno b : Nat}
    (h : bread w pid dev blockno = .ok wa b) :
    ∃ wb, bread w1 (π pid) (ρ dev) blockno = .ok wb b ∧ Sim ρ π δ wa wb := by
  have hlock : ∀ c, (w.buf c).lock = none → (w1.buf c).lock = none := by
    intro c hc; rw [S.buf c]; simp [mapBuf, hc]
  rcases bread_ok h with ⟨hl, hf, rfl⟩ | ⟨hl, hs, hf, rfl⟩
  · refine ⟨bread_fill (lock_by (bget_hit w1 b) (π pid) b) b, ?_, ?_⟩
    · simp [Bio.bread, bget, S.lookup hρ, hl, acquiresleep, bget_hit, hlock b hf]
    · apply Sim.fill
      unfold lock_by bget_hit
      simp only [setAt_same, setAt_setAt]
      have := S.update b { w.buf b with refcnt := uinc (w.buf b).refcnt, lock := some pid }
        { w1.buf b with refcnt := uinc (w1.buf b).refcnt, lock := some (π pid) }
        (by rw [S.buf b]; simp [mapBuf]) w.head w1.head S.head
      exact this
  · refine ⟨bread_fill (lock_by (bget_take w1 (ρ dev) blockno b) (π pid) b) b, ?_, ?_⟩
    · simp [Bio.bread, bget, S.lookup hρ, hl, bget_recycle, S.scan, hs, acquiresleep,
        bget_take, hlock b hf]
    · apply Sim.fill
      unfold lock_by bget_take
      simp only [setAt_same, setAt_setAt]
      have := S.update b
        { w.buf b with dev := dev, blockno := blockno, valid := 0, refcnt := 1,
                       lock := some pid }
        { w1.buf b with dev := ρ dev, blockno := blockno, valid := 0, refcnt := 1,
                        lock := some (π pid) }
        (by rw [S.buf b]; simp [mapBuf])
        (link_front (unlink w.head b) (blockno % NBUCKET) b)
        (link_front (unlink w1.head b) (blockno % NBUCKET) b) (by rw [S.head])
      exact this

theorem Sim.brelse {ρ π δ : Nat → Nat} {w w1 wa : World} (S : Sim ρ π δ w w1)
    {pid b : Nat} (h : brelse w pid b = .ok wa ()) :
    ∃ wb, brelse w1 (π pid) b = .ok wb () ∧ Sim ρ π δ wa wb := by
  unfold Bio.brelse at h
  split at h
  case isFalse => simp at h
  case isTrue hh =>
  injection h with h _
  subst h
  have hh1 : holdingsleep w1 (π pid) b := by
    unfold holdingsleep at hh ⊢
    rw [S.buf b]; simp [mapBuf, hh]
  refine ⟨brelse_drop (releasesleep w1 b) b, by simp [Bio.brelse, hh1], ?_⟩
  refine ⟨?_, ?_, ?_, ?_⟩
  · rw [brelse_drop_nbuf, brelse_drop_nbuf, S.nbuf]
  · rw [brelse_drop_head, brelse_drop_head, S.head, S.buf b]
    simp [mapBuf]
  · intro i
    rw [brelse_drop_buf, brelse_drop_buf]
    by_cases hi : i = b
    · subst hi; simp [S.buf i, mapBuf]
    · simp [setAt_ne _ _ hi, S.buf i]
  · intro d n
    rw [brelse_drop_disk, brelse_drop_disk, S.disk]

theorem Sim.scenario {ρ π δ : Nat → Nat} {w w1 wa : World} (S : Sim ρ π δ w w1)
    (hρ : Function.Injective ρ) {pid dev : Nat} {ks : List Nat}
    (h : scenario pid dev w ks = some wa) :
    ∃ wb, scenario (π pid) (ρ dev) w1 ks = some wb ∧ Sim ρ π δ wa wb := by
  induction ks generalizing w w1 with
  | nil =>
    simp only [Bio.scenario, Option.some.injEq] at h
    subst h
    exact ⟨w1, rfl, S⟩
  | cons k ks ih =>
    simp only [Bio.scenario] at h ⊢
    cases hr : read_release pid dev w k with
    | none => simp [hr] at h
    | some w2 =>
      simp only [hr, Option.bind] at h
      unfold read_release at hr
      cases hb : Bio.bread w pid dev k with
      | panic w3 m => simp [hb] at hr
      | sleeps w3 m => simp [hb] at hr
      | ok w3 b =>
        simp only [hb] at hr
        obtain ⟨w3b, e1, S3⟩ := S.bread hρ hb
        cases hc : Bio.brelse w3 pid b with
        | panic w4 m => simp [hc, Outcome.world?] at hr
        | sleeps w4 m => simp [hc, Outcome.world?] at hr
        | ok w4 u =>
          simp only [hc, Outcome.world?, Option.some.injEq] at hr
          subst hr
          obtain ⟨w4b, e2, S4⟩ := S3.brelse hc
          obtain ⟨wb, e3, S5⟩ := ih S4 h
          refine ⟨wb, ?_, S5⟩
          simp [read_release, e1, e2, Outcome.world?, e3]


/-! ## The example scenario -/

theorem sim_binit (ρ : Nat → Nat) (hρ0 : ρ 0 = 0) (pid : Nat) (disk : Nat → Nat → Data) :
    Sim ρ (fun _ => pid) (content_of ρ disk) (binit 30 disk_addr) (binit 30 disk) := by
  refine ⟨rfl, rfl, ?_, ?_⟩
  · intro i
    simp [binit, mapBuf, zeroBuf, hρ0, content_of]
  · intro d n
    simp [binit, content_of, disk_addr, Nat.unpair_pair]

set_option maxRecDepth 100000 in
theorem after_scenario_facts_0 :
    (scenario 1 0 (binit 30 disk_addr) (List.range 30)).isSome = true ∧
    bget_lookup (after_scenario 0) 0 30 = none ∧ bget_scan (after_scenario 0) 30 = some 1 ∧
    (after_scenario 0).buf 1 = ⟨1, 0, 1, none, 0, disk_addr 0 1⟩ ∧
    (after_scenario 0).disk 0 30 = disk_addr 0 30 ∧
    (after_scenario 0).head 1 = [1] ∧
    (after_scenario 0).buf 29 = ⟨1, 0, 0, none, 0, disk_addr 0 0⟩ ∧
    (∀ k, k < NBUCKET → k ≠ 1 → 1 ∉ (after_scenario 0).head k) := by
  decide

set_option maxRecDepth 100000 in
theorem after_scenario_facts_1 :
    (scenario 1 1 (binit 30 disk_addr) (List.range 30)).isSome = true ∧
    bget_lookup (after_scenario 1) 1 30 = none ∧ bget_scan (after_scenario 1) 30 = some 1 ∧
    (after_scenario 1).buf 1 = ⟨1, 1, 1, none, 0, disk_addr 1 1⟩ ∧
    (after_scenario 1).disk 1 30 = disk_addr 1 30 ∧
    (after_scenario 1).head 1 = [1] ∧
    (after_scenario 1).buf 0 = ⟨1, 1, 0, none, 0, disk_addr 1 0⟩ ∧
    (∀ k, k < NBUCKET → k ≠ 1 → 1 ∉ (after_scenario 1).head k) := by
  decide

theorem scenario_sim_post (dev0 s0 : Nat) (hs0 : s0 ≠ 1)
    (hc : (scenario 1 dev0 (binit 30 disk_addr) (List.range 30)).isSome = true ∧
      bget_lookup (after_scenario dev0) dev0 30 = none ∧
      bget_scan (after_scenario dev0) 30 = some 1 ∧
      (after_scenario dev0).buf 1 = ⟨1, dev0, 1, none, 0, disk_addr dev0 1⟩ ∧
      (after_scenario dev0).disk dev0 30 = disk_addr dev0 30 ∧
      (after_scenario dev0).head 1 = [1] ∧
      (after_scenario dev0).buf s0 = ⟨1, dev0, 0, none, 0, disk_addr dev0 0⟩ ∧
      (∀ k, k < NBUCKET → k ≠ 1 → 1 ∉ (after_scenario dev0).head k))
    (ρ : Nat → Nat) (hρ : Function.Injective ρ) (hρ0 : ρ 0 = 0) (pid : Nat)
    (disk : Nat → Nat → Data) :
    ∃ w, scenario pid (ρ dev0) (binit 30 disk) (List.range 30) = some w ∧
      bget_lookup w (ρ dev0) 30 = none ∧ bget_scan w 30 = some 1 ∧
      w.head 1 = [1] ∧
      w.buf 1 = ⟨1, ρ dev0, 1, none, 0, disk (ρ dev0) 1⟩ ∧
      (∃ s, s ≠ 1 ∧ w.buf s = ⟨1, ρ dev0, 0, none, 0, disk (ρ dev0) 0⟩) ∧
      ((bget_take w (ρ dev0) 30 1).buf 1).valid = 0 ∧
      ∃ w1, bread w pid (ρ dev0) 30 = .ok w1 1 ∧
        w1.buf 1 = ⟨1, ρ dev0, 30, some pid, 1, disk (ρ dev0) 30⟩ ∧
        (∀ i, i ≠ 1 → w1.buf i = w.buf i) ∧
        (∀ k, k < NBUCKET → w1.head k = w.head k) ∧
        w1.log = w.log ++ [DiskEv.rd (ρ dev0) 30] := by
  obtain ⟨h1, h2, h3, h4, h5, h6, h7, h8⟩ := hc
  have hs : scenario 1 dev0 (binit 30 disk_addr) (List.range 30) =
      some (after_scenario dev0) := by
    obtain ⟨w, hw⟩ := Option.isSome_iff_exists.mp h1
    unfold after_scenario
    rw [hw]; rfl
  obtain ⟨w, e1, S⟩ := (sim_binit ρ hρ0 pid disk).scenario hρ hs
  have hl : bget_lookup w (ρ dev0) 30 = none := by rw [S.lookup hρ, h2]
  have hsc : bget_scan w 30 = some 1 := by rw [S.scan, h3]
  have hd : ∀ n, content_of ρ disk (disk_addr dev0 n) = disk (ρ dev0) n := by
    intro n; simp [content_of, disk_addr, Nat.unpair_pair]
  have hb : w.buf 1 = ⟨1, ρ dev0, 1, none, 0, disk (ρ dev0) 1⟩ := by
    rw [S.buf 1, h4]; simp [mapBuf, hd]
  have hb0 : w.buf s0 = ⟨1, ρ dev0, 0, none, 0, disk (ρ dev0) 0⟩ := by
    rw [S.buf s0, h7]; simp [mapBuf, hd]
  have hdisk : w.disk (ρ dev0) 30 = disk (ρ dev0) 30 := by
    rw [S.disk, h5, hd]
  have hhead : w.head 1 = [1] := by rw [S.head, h6]
  have e29 : 30 % NBUCKET = 1 := by decide
  obtain ⟨w1, f1, f2, f3, f4, _, _⟩ := bread_miss pid hl hsc (by rw [hb])
  refine ⟨w, e1, hl, hsc, hhead, hb, ⟨s0, hs0, hb0⟩, by simp [bget_take], w1, f1, ?_, ?_, ?_,
    f4⟩
  · rw [f2, hdisk]; simp
  · intro i hi
    rw [f2, setAt_ne _ _ hi]
  · intro k hk
    rw [f3, link_front_apply, e29]
    split
    · next e => rw [e, hhead]; simp
    · next e =>
      apply List.erase_of_not_mem
      rw [S.head]
      exact h8 k hk e

/-- C3, amended. In a pool of 30 slots with 29 buckets, after a process has read and
released the blocks `0 .. 29` of a device in increasing order, starting from the state
of `binit`, its read of block 30 finds no slot holding the block and recycles slot 1,
the only and so the least recently released slot of the target bucket `30 % 29 = 1`,
which held block 1 with `refcnt == 0`. The recycling sets `valid` to 0, and the read
returns the slot with `blockno == 30`, `refcnt == 1`, `valid == 1`, the content lock
held by the caller and the content of block 30 read from the disk by one call of the
driver. Every other slot, among them the slot that holds block 0, and every bucket
list are left as they were. -/
theorem scenario_post (pid dev : Nat) (disk : Nat → Nat → Data) :
    ∃ w, scenario pid dev (binit 30 disk) (List.range 30) = some w ∧
      bget_lookup w dev 30 = none ∧ bget_scan w 30 = some 1 ∧
      w.head (30 % NBUCKET) = [1] ∧
      w.buf 1 = ⟨1, dev, 1, none, 0, disk dev 1⟩ ∧
      (∃ s, s ≠ 1 ∧ w.buf s = ⟨1, dev, 0, none, 0, disk dev 0⟩) ∧
      ((bget_take w dev 30 1).buf 1).valid = 0 ∧
      ∃ w1, bread w pid dev 30 = .ok w1 1 ∧
        w1.buf 1 = ⟨1, dev, 30, some pid, 1, disk dev 30⟩ ∧
        (∀ i, i ≠ 1 → w1.buf i = w.buf i) ∧
        (∀ k, k < NBUCKET → w1.head k = w.head k) ∧
        w1.log = w.log ++ [DiskEv.rd dev 30] := by
  by_cases h : dev = 0
  · subst h
    exact scenario_sim_post 0 29 (by decide) after_scenario_facts_0 id Function.injective_id
      rfl pid disk
  · have e : (Equiv.swap 1 dev) 1 = dev := Equiv.swap_apply_left 1 dev
    have e0 : (Equiv.swap 1 dev) 0 = 0 :=
      Equiv.swap_apply_of_ne_of_ne (by decide) (Ne.symm h)
    have := scenario_sim_post 1 0 (by decide) after_scenario_facts_1 (Equiv.swap 1 dev)
      (Equiv.injective _) e0 pid disk
    rw [e] at this
    exact this


/-! ## The bound on the number of calls -/

theorem run_cons (w : World) (op : Op) (ops : List Op) :
    run w (op :: ops) = (step w op).bind (fun w1 => run w1 ops) := rfl

theorem run_bpin_replicate (n : Nat) (w : World) (b : Nat) (hb : b < w.nbuf)
    (h0 : 0 < (w.buf b).refcnt) (h1 : (w.buf b).refcnt < UINT)
    (hn : (w.buf b).refcnt + n ≤ UINT) :
    ∃ w1, run w (List.replicate n (.bpin b)) = some w1 ∧
      (w1.buf b).refcnt = ((w.buf b).refcnt + n) % UINT := by
  induction n generalizing w with
  | zero =>
    refine ⟨w, rfl, ?_⟩
    rw [Nat.add_zero]
    exact (Nat.mod_eq_of_lt h1).symm
  | succ n ih =>
    have hs : step w (.bpin b) = some (bpin w b) := by
      unfold step
      rw [if_pos (show pre w (.bpin b) from ⟨hb, h0⟩)]
      rfl
    have hrc : ((bpin w b).buf b).refcnt = uinc (w.buf b).refcnt := by simp [bpin]
    rw [List.replicate_succ, run_cons, hs]
    show ∃ w1, run (bpin w b) (List.replicate n (.bpin b)) = some w1 ∧ _
    by_cases hz : n = 0
    · subst hz
      refine ⟨bpin w b, rfl, ?_⟩
      rw [hrc]; rfl
    · have hlt : (w.buf b).refcnt + 1 < UINT := by omega
      rw [uinc_eq hlt] at hrc
      obtain ⟨w1, e1, e2⟩ := ih (bpin w b) hb (by omega) (by omega) (by omega)
      refine ⟨w1, e1, ?_⟩
      rw [e2, hrc]
      congr 1
      omega

theorem bpin_wraps_aux (n : Nat) (hn : 1 + n = UINT) :
    ∃ w1, run (binit 30 disk0) (.bread 1 1 0 :: List.replicate n (.bpin 0)) = some w1 ∧
      (w1.buf 0).refcnt = 0 := by
  have h1 : step (binit 30 disk0) (.bread 1 1 0) = some (after [.bread 1 1 0] 30 disk0) :=
    step_after [] (.bread 1 1 0) [.bread 1 1 0] 30 disk0 rfl (by decide)
  have hrc : ((after [.bread 1 1 0] 30 disk0).buf 0).refcnt = 1 := by decide
  obtain ⟨w1, e1, e2⟩ := run_bpin_replicate n (after [.bread 1 1 0] 30 disk0) 0
    (by decide) (by rw [hrc]; decide) (by rw [hrc]; decide) (by rw [hrc, hn])
  refine ⟨w1, ?_, ?_⟩
  · rw [run_cons, h1]
    exact e1
  · rw [e2, hrc, hn, Nat.mod_self]

/-- The bound on the number of calls in C4, amended, cannot be dropped: after `bread`,
`2^32 - 1` calls of `bpin` on the slot it returned, each finding the slot referenced,
leave the `refcnt` of the slot at 0. -/
theorem bpin_wraps :
    ∃ w1, run (binit 30 disk0) (.bread 1 1 0 :: List.replicate (UINT - 1) (.bpin 0)) = some w1 ∧
      (w1.buf 0).refcnt = 0 :=
  bpin_wraps_aux (UINT - 1) (by decide)


/-- In a reachable state and for a block number below `2^32 - NBUCKET + 1`, a miss with
some slot of the pool at `refcnt == 0` recycles the slot `v` selected by the rule of the
specification, which has `refcnt == 0`: `v` gets `dev`, `blockno`, `valid = 0` and
`refcnt = 1` and is linked at the head of the target bucket; the other slots are
unchanged and the other entries of every list keep their order. The caller then
acquires the content lock of `v`. -/
theorem bget_miss_post (w : World) (hw : Reachable w) (pid dev blockno : Nat)
    (hb : blockno + NBUCKET ≤ UINT) (hl : bget_lookup w dev blockno = none)
    (i : Nat) (hi : i < w.nbuf) (h0 : (w.buf i).refcnt = 0) :
    ∃ v, spec_scan w blockno = some v ∧ (w.buf v).refcnt = 0 ∧ v < w.nbuf ∧
      bget w pid dev blockno = acquiresleep (bget_take w dev blockno v) pid v ∧
      (bget_take w dev blockno v).buf v =
        ⟨0, dev, blockno, (w.buf v).lock, 1, (w.buf v).data⟩ ∧
      (∀ j, j ≠ v → (bget_take w dev blockno v).buf j = w.buf j) ∧
      (bget_take w dev blockno v).head (blockno % NBUCKET) =
        v :: (w.head (blockno % NBUCKET)).filter (fun x => x != v) ∧
      (∀ k, k ≠ blockno % NBUCKET →
        (bget_take w dev blockno v).head k = (w.head k).filter (fun x => x != v)) := by
  have I := hw.inv
  have hsome : bget_scan w blockno ≠ none := by
    intro hn
    have := (bget_scan_none_iff w hw blockno hb).mp hn i hi
    omega
  obtain ⟨v, hv⟩ := Option.ne_none_iff_exists'.mp hsome
  obtain ⟨hv0, j, _, hmem⟩ := bget_scan_some hv
  refine ⟨v, by rw [← bget_scan_eq_spec w blockno hb, hv], hv0, (I.mem_lt _ _ hmem).1, ?_, ?_,
    ?_, ?_, ?_⟩
  · simp [bget, hl, bget_recycle, hv]
  · simp [bget_take]
  · intro j hj; simp [bget_take, setAt_ne _ _ hj]
  · show link_front (unlink w.head v) (blockno % NBUCKET) v (blockno % NBUCKET) = _
    rw [link_front_apply, if_pos rfl, (I.nodup _).erase_eq_filter]
  · intro k hk
    show link_front (unlink w.head v) (blockno % NBUCKET) v k = _
    rw [link_front_apply, if_neg hk, (I.nodup _).erase_eq_filter]

end Bio
